import Mathlib

/-!
# Verification of the recursive-data-cleaner pipeline

A shallow embedding, in Lean 4, of the core of the `recursive-data-cleaner`
repository (an LLM-driven incremental data-cleaning pipeline), together with
theorems settling a list of claims about its behaviour.

Conventions used throughout:

* Python functions become Lean functions on `String`, `List`, `Int`, `Nat`.
* Calls into the Python runtime or standard library whose behaviour is not
  part of this repository (executing generated code via `exec`, `json.loads`,
  `ast.parse`) are abstracted as explicit function parameters, so theorems
  quantify over every possible behaviour of those calls.
* Fallible code returns `Except`/`Option` or mirrors the source's
  `(bool, message)` tuples.
* Diagnostic message texts mirror the source; single-quote characters that the
  source interpolates around names are elided from the message strings.
-/

namespace RecursiveCleaner

/-! ## Python string primitives

Kernel-computable models of the Python string methods the source uses
(`String.trim`, `String.splitOn`, `String.toLower` and `String.startsWith`
from core Lean are implemented on byte positions and do not reduce inside
the kernel, so concrete instances could not be checked with them). -/

/-- Python `str.strip()`: drop leading and trailing whitespace. -/
def pyStrip (s : String) : String :=
  String.mk (((s.data.dropWhile Char.isWhitespace).reverse.dropWhile
    Char.isWhitespace).reverse)

/-- Python `str.split(sep)` for a one-character separator, on character
lists: splitting keeps empty pieces, and splitting the empty string yields
one empty piece. -/
def splitChar (sep : Char) : List Char → List (List Char)
  | [] => [[]]
  | c :: rest =>
    match splitChar sep rest with
    | [] => [[]]
    | h :: t => if c = sep then [] :: h :: t else (c :: h) :: t

/-- Python `s.split("\n")`. -/
def splitNl (s : String) : List String :=
  (splitChar (Char.ofNat 10) s.data).map String.mk

/-- Python `str.lower()` (ASCII case folding). -/
def pyLower (s : String) : String := String.mk (s.data.map Char.toLower)

/-- Python `str.startswith(p)`. -/
def pyStartsWith (s p : String) : Bool := p.data.isPrefixOf s.data

/-- Processing mode of the pipeline (`Literal["structured", "text"]` in the
source). -/
inductive Mode where
  | structured
  | text
deriving DecidableEq, Repr

/-- A Python value, as far as the pipeline inspects one: the code only ever
asks `isinstance(x, dict)`, `isinstance(x, str)` and `type(x).__name__`.
`pother` carries the type name of any other value. -/
inductive PyVal where
  | pstr (s : String)
  | pdict (entries : List (String × PyVal))
  | plist (elems : List PyVal)
  | pother (tyName : String)

/-- `type(x).__name__` for the values we model. -/
def PyVal.typeName : PyVal → String
  | .pstr _ => "str"
  | .pdict _ => "dict"
  | .plist _ => "list"
  | .pother t => t

/-- A raised Python exception: its class name and its message, enough to
render `f"{type(e).__name__}: {e}"`. -/
structure PyExn where
  ename : String
  emsg : String
deriving DecidableEq, Repr

/-- `f"{type(e).__name__}: {e}"` -/
def PyExn.format (e : PyExn) : String := e.ename ++ ": " ++ e.emsg

/-- The semantics of one generated Python function: applied to a value, it
either returns a value or raises. -/
def PyFun : Type := PyVal → Except PyExn PyVal

/-- The semantics of `exec(code, namespace)` followed by name lookup: either
the code itself raises while being executed, or we obtain a namespace mapping
names to functions. This is the abstraction of the Python runtime used by
`validate_function`; theorems quantify over it. -/
def PyExec : Type := String → Except PyExn (String → Option PyFun)

/-- `sample_data: list[dict] | str` — the union-typed argument of
`validate_function`. -/
inductive SampleData where
  | records (rs : List PyVal)
  | text (s : String)

/-- Python truthiness of `sample_data` (`not sample_data`): an empty list or
empty string is falsy. -/
def SampleData.isFalsy : SampleData → Bool
  | .records rs => rs.isEmpty
  | .text s => s == ""

/-- Whether the union value is a `str` (`isinstance(sample_data, str)`). -/
def SampleData.isStr : SampleData → Bool
  | .records _ => false
  | .text _ => true

/-- The `str.strip()` of a text sample; `""` for a list (never consulted for
lists in the source). -/
def SampleData.stripped : SampleData → String
  | .records _ => ""
  | .text s => pyStrip s

/-- The union value as the single Python value passed to `func(sample_data)`
in text mode. -/
def SampleData.asVal : SampleData → PyVal
  | .records rs => .plist rs
  | .text s => .pstr s

/-- The values iterated over by `for i, record in enumerate(sample_data)` in
structured mode. Iterating a Python `str` yields its characters. -/
def SampleData.elems : SampleData → List PyVal
  | .records rs => rs
  | .text s => s.data.map fun c => .pstr (String.singleton c)

/-- The per-record loop of `validate_function` (structured mode): invoke the
function on each record in turn, failing on the first raised exception, with
the running index `i` used in the diagnostic. -/
def validateRecords (func : PyFun) : Nat → List PyVal → Bool × Option String
  | _, [] => (true, none)
  | i, r :: rest =>
    match func r with
    | .error e => (false, some ("Runtime error on sample " ++ toString i ++ ": " ++ e.format))
    | .ok _ => validateRecords func (i + 1) rest

/-- Shallow embedding of `validate_function`
(src/recursive_cleaner/validation.py, lines 7-63). `pyExec` abstracts
`exec(code, namespace)` + namespace lookup. -/
def validate_function (pyExec : PyExec) (code : String) (sample_data : SampleData)
    (function_name : String) (mode : Mode) : Bool × Option String :=
  -- Handle empty data
  if mode = .text ∧ (sample_data.isFalsy ∨ (sample_data.isStr ∧ sample_data.stripped = "")) then
    (true, none)
  else if mode = .structured ∧ sample_data.isFalsy then
    (true, none)
  else
    -- Create isolated namespace and execute the code
    match pyExec code with
    | .error e => (false, some ("Code compilation failed: " ++ e.format))
    | .ok namespace_ =>
      -- Get the function from namespace
      match namespace_ function_name with
      | none => (false, some ("Function " ++ function_name ++ " not found in code"))
      | some func =>
        match mode with
        | .text =>
          match func sample_data.asVal with
          | .error e => (false, some ("Runtime error on text input: " ++ e.format))
          | .ok result =>
            if result.typeName = "str" then (true, none)
            else (false, some ("Function must return str, got " ++ result.typeName))
        | .structured => validateRecords func 0 sample_data.elems

/-- The semantics of `json.loads` on one line: `none` when a
`json.JSONDecodeError` is raised, otherwise the decoded value. Theorems
quantify over it. -/
def JsonLoads : Type := String → Option PyVal

/-- Does `json.loads(line)` succeed and yield a `dict`? -/
def loadsDict (jsonLoads : JsonLoads) (line : String) : Bool :=
  match jsonLoads line with
  | some (.pdict _) => true
  | _ => false

/-- The line loop of `extract_sample_data` (structured mode): strip each
line, skip blanks, keep decoded dicts and stop once `max_samples` are
collected (`cnt` counts the samples collected so far). -/
def extractLines (jsonLoads : JsonLoads) (max_samples : Nat) : Nat → List String → List PyVal
  | _, [] => []
  | cnt, l :: ls =>
    let line := pyStrip l
    if line = "" then extractLines jsonLoads max_samples cnt ls
    else
      match jsonLoads line with
      | some (.pdict d) =>
        if cnt + 1 ≥ max_samples then [.pdict d]
        else .pdict d :: extractLines jsonLoads max_samples (cnt + 1) ls
      | _ => extractLines jsonLoads max_samples cnt ls

/-- Shallow embedding of `extract_sample_data`
(src/recursive_cleaner/validation.py, lines 66-98). `jsonLoads` abstracts
`json.loads`. -/
def extract_sample_data (jsonLoads : JsonLoads) (chunk : String)
    (max_samples : Nat := 3) (mode : Mode := .structured) : SampleData :=
  match mode with
  | .text => .text chunk
  | .structured => .records (extractLines jsonLoads max_samples 0 (splitNl (pyStrip chunk)))

/-! ## Substring containment (Python's `in` on strings) -/

/-- Does `sub` occur (contiguously) in `l`? Models Python's `sub in s`. -/
def containsChars (sub : List Char) : List Char → Bool
  | [] => sub.isEmpty
  | l@(_ :: rest) => sub.isPrefixOf l || containsChars sub rest

/-- `sub in s` for Python strings. -/
def containsSubstr (s sub : String) : Bool := containsChars sub.data s.data

/-- Index of the first occurrence of `sub` in a character list (Python
`str.find` / the leftmost regex match position). -/
def findSubIdx (sub : List Char) : List Char → Option Nat
  | [] => if sub.isEmpty then some 0 else none
  | l@(_ :: rest) =>
    if sub.isPrefixOf l then some 0
    else (findSubIdx sub rest).map (· + 1)

/-! ## Python string comparison

CPython compares `str` values lexicographically by code point; `sorted`
produces the unique sorted arrangement of a list of distinct strings. -/

/-- Code-point lexicographic `<` on character lists, as Python compares
strings. -/
def pyCharsLt : List Char → List Char → Bool
  | [], [] => false
  | [], _ :: _ => true
  | _ :: _, [] => false
  | a :: as, b :: bs =>
    if a.toNat < b.toNat then true
    else if b.toNat < a.toNat then false
    else pyCharsLt as bs

/-- Python `<=` on strings. -/
def pyStrLe (a b : String) : Bool := !pyCharsLt b.data a.data

/-- Python `<=` on strings, as a relation. -/
def pyStrLeRel (a b : String) : Prop := pyStrLe a b = true

instance : DecidableRel pyStrLeRel := fun a b => by
  unfold pyStrLeRel; infer_instance

/-! ## Output generation (src/recursive_cleaner/output.py) -/

/-- A generated cleaning function `{name, docstring, code}`. -/
structure Func where
  name : String
  docstring : String
  code : String
deriving DecidableEq, Repr

/-- Shallow embedding of `extract_imports` (output.py, lines 9-16). -/
def extract_imports (code : String) : List String :=
  (splitNl code).filterMap fun line =>
    let stripped := pyStrip line
    if pyStartsWith stripped "import " || pyStartsWith stripped "from " then some stripped
    else none

/-- Shallow embedding of `remove_imports_from_code` (output.py, lines
19-29). -/
def remove_imports_from_code (code : String) : String :=
  let lines := (splitNl code).filter fun line =>
    let stripped := pyStrip line
    !(pyStartsWith stripped "import " || pyStartsWith stripped "from ")
  String.intercalate "\n" (lines.dropWhile fun l => pyStrip l = "")

/-- The seen-set loop shared by `deduplicate_imports`: keep the first
occurrence of each string (the Python `set` is modelled by the list of
strings seen so far). -/
def seenFoldStr (seen : List String) : List String → List String
  | [] => []
  | i :: rest =>
    if i ∈ seen then seenFoldStr seen rest
    else i :: seenFoldStr (i :: seen) rest

/-- Shallow embedding of `deduplicate_imports` (output.py, lines 32-40):
first-occurrence deduplication followed by `sorted(result)`. The deduplicated
list has distinct elements, so CPython's stable sort produces the unique
`pyStrLeRel`-sorted arrangement, modelled here by insertion sort. -/
def deduplicate_imports (imports : List String) : List String :=
  List.insertionSort pyStrLeRel (seenFoldStr [] imports)

/-- Shallow embedding of `generate_clean_data_function` (output.py, lines
43-63). -/
def generate_clean_data_function (function_names : List String) : String :=
  if function_names.isEmpty then
    "\ndef clean_data(data):\n    \"\"\"Apply all cleaning functions to data.\"\"\"\n    return data\n"
  else
    let calls := String.intercalate "\n    "
      (function_names.map fun n => "data = " ++ n ++ "(data)")
    let docLines := String.intercalate "\n"
      (function_names.map fun n => "    - " ++ n)
    "\ndef clean_data(data):\n    \"\"\"\n    Apply all cleaning functions to data.\n\n    Functions applied (in order):\n"
      ++ docLines ++ "\n    \"\"\"\n    " ++ calls ++ "\n    return data\n"

/-- The warning printed for a dropped duplicate function (quotes around the
name elided). -/
def dupWarning (n : String) : String :=
  "  Warning: Skipping duplicate function " ++ n

/-- The seen-set loop of `deduplicate_functions`, also collecting the warning
printed for each dropped duplicate. -/
def dedupFuncsGo (seen : List String) : List Func → List Func × List String
  | [] => ([], [])
  | f :: rest =>
    if f.name ∈ seen then
      ((dedupFuncsGo seen rest).1, dupWarning f.name :: (dedupFuncsGo seen rest).2)
    else
      (f :: (dedupFuncsGo (f.name :: seen) rest).1, (dedupFuncsGo (f.name :: seen) rest).2)

/-- Shallow embedding of `deduplicate_functions` (output.py, lines 66-84).
The source prints one warning per dropped duplicate; the printed warnings are
returned as the second component. -/
def deduplicate_functions (functions : List Func) : List Func × List String :=
  dedupFuncsGo [] functions

/-- All imports collected from the deduplicated functions, excluding those
mentioning `__main__` (write_cleaning_file, lines 111-117). -/
def collectImports (fns : List Func) : List String :=
  fns.flatMap fun f =>
    (extract_imports f.code).filter fun i => !(containsSubstr i "__main__")

/-- The hoisted import block of the composition (write_cleaning_file, line
119). -/
def hoistedImports (fns : List Func) : List String :=
  deduplicate_imports (collectImports fns)

/-- The file content assembled by `write_cleaning_file` for a non-empty
function list (output.py, lines 108-140), before the final syntax
validation. -/
def cleaningContent (fns : List Func) : String :=
  let unique_imports := hoistedImports fns
  let lines := ["\"\"\"Auto-generated data cleaning functions.\"\"\"", ""]
    ++ (if unique_imports.isEmpty then [] else unique_imports ++ ["", ""])
    ++ (fns.flatMap fun f => [remove_imports_from_code f.code, "", ""])
    ++ [generate_clean_data_function (fns.map (·.name))]
  String.intercalate "\n" lines

/-- Shallow embedding of `write_cleaning_file` (output.py, lines 87-151),
with the file write elided: returns the written content plus the duplicate
warnings, or the `OutputValidationError` message. `astOk` abstracts
`ast.parse` succeeding on the combined output. -/
def write_cleaning_file (astOk : String → Bool) (functions : List Func) :
    Except String (String × List String) :=
  if functions.isEmpty then
    .ok ("\"\"\"Auto-generated data cleaning functions.\"\"\"\n"
      ++ generate_clean_data_function [], [])
  else
    let (fns, warns) := deduplicate_functions functions
    let content := cleaningContent fns
    if astOk content then .ok (content, warns)
    else .error "Generated output has invalid Python syntax"

/-- First-occurrence deduplication of functions by name, stated as a
structural recursion: the specification that `deduplicate_functions` is
proved to satisfy. -/
def firstOccDedup : List Func → List Func
  | [] => []
  | f :: rest => f :: firstOccDedup (rest.filter fun g => g.name ≠ f.name)
termination_by l => l.length
decreasing_by
  simp only [List.length_cons]
  exact Nat.lt_succ_of_le (List.length_filter_le _ _)

/-! ## State persistence (src/recursive_cleaner/state.py) -/

/-- `STATE_VERSION` of state.py. (cleaner.py carries its own, older,
`STATE_VERSION = "0.3.0"`.) -/
def STATE_VERSION : String := "0.5.0"

/-- A checkpoint document as decoded from JSON: every field access in the
loader goes through `.get(...)`, so each field is optional. -/
structure StateDoc where
  version : Option String := none
  file_path : Option String := none
  instructions : Option String := none
  chunk_size : Option Int := none
  last_completed_chunk : Option Int := none
  total_chunks : Option Int := none
  functions : Option (List Func) := none
  timestamp : Option String := none
deriving DecidableEq, Repr

/-- The fields `load_state` returns. -/
structure LoadedState where
  functions : List Func
  last_completed_chunk : Int
  total_chunks : Int
deriving DecidableEq, Repr

/-- Shallow embedding of `load_state` (state.py, lines 44-74). The argument
is the outcome of reading and JSON-decoding the state file: `.error e` stands
for a raised `json.JSONDecodeError`. -/
def load_state (doc : Except String StateDoc) (expected_file_path : String) :
    Except String LoadedState :=
  match doc with
  | .error e => .error ("Invalid state file JSON: " ++ e)
  | .ok state =>
    if state.file_path ≠ some expected_file_path then
      .error ("State file_path mismatch: state has "
        ++ state.file_path.getD "None"
        ++ ", but current file_path is " ++ expected_file_path)
    else
      .ok { functions := state.functions.getD []
            last_completed_chunk := state.last_completed_chunk.getD (-1)
            total_chunks := state.total_chunks.getD 0 }

/-! ## Text chunking (src/recursive_cleaner/parsers.py) -/

/-- The slicing loop of `_chunk_text` (parsers.py, lines 45-52):
`for i in range(0, len(content), char_count): content[i:i + char_count]`,
taking `char_count` characters at a time. The recursion is bounded by a fuel
argument, always instantiated with the content length, which covers the
whole loop whenever `0 < c` (a `0` step cannot arise from the source:
`range` would raise `ValueError`, and `char_count` is always
`chunk_size * 80`). -/
def chunkTextGo (c : Nat) : Nat → List Char → List (List Char)
  | _, [] => []
  | 0, _ :: _ => []
  | fuel + 1, x :: xs => ((x :: xs).take c) :: chunkTextGo c fuel ((x :: xs).drop c)

/-- Shallow embedding of `_chunk_text` (parsers.py, lines 45-52): slice the
text into consecutive `char_count`-character pieces, keeping those whose
`strip()` is non-empty. -/
def _chunk_text (content : String) (char_count : Nat) : List String :=
  (chunkTextGo char_count content.data.length content.data).filterMap fun cs =>
    let chunk := String.mk cs
    if pyStrip chunk = "" then none else some chunk

/-- The `.txt` path of `chunk_file` (parsers.py, lines 27-33): empty input
yields no chunks, otherwise text is chunked by a `chunk_size * 80` character
budget. (`chunk_file` in this snapshot accepts no `mode` or `chunk_overlap`
argument at all, although `DataCleaner.run` passes both.) -/
def chunk_file_text (content : String) (chunk_size : Nat) : List String :=
  if pyStrip content = "" then [] else _chunk_text content (chunk_size * 80)

/-! ## An XML fragment model (`xml.etree.ElementTree.fromstring`)

`parse_response` parses the LLM reply with `ET.fromstring`. We model the
fragment of XML the protocol uses: elements with attributes, character data,
the five predefined entities, and self-closing tags (no comments, processing
instructions, CDATA, doctypes or numeric character references). As in ET, a
raw `&` or a stray `<` in character data is a parse error, and adjacent
pieces of character data are merged. -/

mutual

/-- An XML tree: an element with tag, attributes and children, or character
data. (`XForest` rather than `List XTree` for the children, so that every
function on trees is structurally recursive and kernel-computable.) -/
inductive XTree where
  | elem (tag : String) (attrs : List (String × String)) (children : XForest)
  | text (s : String)

/-- A sequence of sibling XML nodes. -/
inductive XForest where
  | nil
  | cons (hd : XTree) (tl : XForest)

end

/-- The sibling sequence as a list. -/
def XForest.toList : XForest → List XTree
  | .nil => []
  | .cons h t => h :: XForest.toList t

/-- Tag of an element (`""` for character data). -/
def XTree.tagOf : XTree → String
  | .elem t _ _ => t
  | .text _ => ""

/-- Children of an element. -/
def XTree.childrenOf : XTree → XForest
  | .elem _ _ c => c
  | .text _ => .nil

/-- Attributes of an element. -/
def XTree.attrsOf : XTree → List (String × String)
  | .elem _ a _ => a
  | .text _ => []

/-- `element.get(key, default)`. -/
def XTree.attr (e : XTree) (key dflt : String) : String :=
  match e.attrsOf.find? (fun p => p.1 = key) with
  | some p => p.2
  | none => dflt

/-- `element.text`: the character data before the first child element, with
ET's `None` collapsed to `""` (every use in the source applies `or ""` or an
equivalent default). -/
def XTree.etext : XTree → String
  | .elem _ _ (.cons (.text s) _) => s
  | _ => ""

/-- Characters allowed in a tag or attribute name. -/
def isNameChar (c : Char) : Bool :=
  c.isAlphanum || c = '_' || c = '-' || c = '.' || c = ':'

/-- XML whitespace. -/
def isXmlWs (c : Char) : Bool :=
  c = ' ' || c = '\n' || c = '\t' || c = '\r'

/-- Decode one entity reference (the input starts after the `&`). Undefined
entities are a parse error, as in ET. -/
def parseEntity (input : List Char) : Option (Char × List Char) :=
  let nm := (input.span (fun c => c ≠ ';')).1
  match (input.span (fun c => c ≠ ';')).2 with
  | sc :: r =>
    if sc = ';' then
      if nm = "amp".data then some ('&', r)
      else if nm = "lt".data then some ('<', r)
      else if nm = "gt".data then some ('>', r)
      else if nm = "quot".data then some ('"', r)
      else if nm = "apos".data then some (Char.ofNat 39, r)
      else none
    else none
  | [] => none

/-- Parse the attribute list of a start tag, up to (and not including) the
closing `>` or `/>`. Attribute values are quoted with `"` (code 34) or `'`
(code 39) and may not contain `<` or `&` (stricter than ET, which also
decodes entities inside attribute values; the protocol uses none). -/
def parseAttrs : Nat → List Char → Option (List (String × String) × List Char)
  | 0, _ => none
  | fuel + 1, input =>
    let input1 := input.dropWhile isXmlWs
    match input1 with
    | [] => some ([], [])
    | c :: _ =>
      if isNameChar c then
        let nm := (input1.span isNameChar).1
        match (input1.span isNameChar).2 with
        | eqc :: qr =>
          match qr with
          | q :: r2 =>
            if eqc = '=' ∧ (q.val = 34 ∨ q.val = 39) then
              let v := (r2.span (fun c => c ≠ q ∧ c ≠ '<' ∧ c ≠ '&')).1
              match (r2.span (fun c => c ≠ q ∧ c ≠ '<' ∧ c ≠ '&')).2 with
              | q2 :: r4 =>
                if q2 = q then
                  match parseAttrs fuel r4 with
                  | some (attrs, r5) => some ((String.mk nm, String.mk v) :: attrs, r5)
                  | none => none
                else none
              | [] => none
            else none
          | [] => none
        | [] => none
      else some ([], input1)

/-- Prepend character data to a node sequence, merging with leading
character data so that parsed trees never hold two adjacent text nodes. -/
def consText (s : String) : XForest → XForest
  | .cons (.text t) rest => .cons (.text (s ++ t)) rest
  | ns => .cons (.text s) ns

mutual

/-- Parse a sequence of content nodes, stopping at the end of input or at a
closing tag (`</`). -/
def parseNodes : Nat → List Char → Option (XForest × List Char)
  | 0, _ => none
  | fuel + 1, input =>
    match input with
    | [] => some (.nil, [])
    | c :: tl =>
      if c = '<' then
        if tl.head? = some '/' then some (.nil, c :: tl)
        else
          match parseElement fuel (c :: tl) with
          | some (e, r) =>
            match parseNodes fuel r with
            | some (ns, r2) => some (.cons e ns, r2)
            | none => none
          | none => none
      else if c = '&' then
        match parseEntity tl with
        | some (ch, r1) =>
          match parseNodes fuel r1 with
          | some (ns, r2) => some (consText (String.singleton ch) ns, r2)
          | none => none
        | none => none
      else
        let txt := ((c :: tl).span (fun x => x ≠ '<' ∧ x ≠ '&')).1
        match parseNodes fuel ((c :: tl).span (fun x => x ≠ '<' ∧ x ≠ '&')).2 with
        | some (ns, r2) => some (consText (String.mk txt) ns, r2)
        | none => none

/-- Parse one element starting at `<`. -/
def parseElement : Nat → List Char → Option (XTree × List Char)
  | 0, _ => none
  | fuel + 1, input =>
    match input with
    | lt :: r =>
      if lt = '<' then
        let nm := (r.span isNameChar).1
        if nm.isEmpty then none
        else
          match parseAttrs fuel (r.span isNameChar).2 with
          | some (attrs, r2) =>
            match r2 with
            | c2 :: r2t =>
              if c2 = '/' then
                match r2t with
                | c3 :: r3 =>
                  if c3 = '>' then some (.elem (String.mk nm) attrs .nil, r3)
                  else none
                | [] => none
              else if c2 = '>' then
                match parseNodes fuel r2t with
                | some (children, r4) =>
                  match r4 with
                  | c4 :: r4t =>
                    if c4 = '<' ∧ r4t.head? = some '/' then
                      let r5 := r4t.tail
                      let nm2 := (r5.span isNameChar).1
                      match ((r5.span isNameChar).2).dropWhile isXmlWs with
                      | c5 :: r8 =>
                        if c5 = '>' ∧ nm2 = nm then
                          some (.elem (String.mk nm) attrs children, r8)
                        else none
                      | [] => none
                    else none
                  | [] => none
                | none => none
              else none
            | [] => none
          | none => none
      else none
    | [] => none

end

/-- `ET.fromstring`: parse a whole document into its root element,
tolerating surrounding whitespace only. -/
def xmlFromString (s : String) : Option XTree :=
  match parseElement (2 * s.length + 2) (s.data.dropWhile isXmlWs) with
  | some (e, rest) => if (rest.dropWhile isXmlWs).isEmpty then some e else none
  | none => none

/-- `element.find(".//tag")` over a node sequence: first matching element
in document order (an element precedes its descendants). -/
def findInNodes (tag : String) : XForest → Option XTree
  | .nil => none
  | .cons (.text _) rest => findInNodes tag rest
  | .cons (.elem t a c) rest =>
    if t = tag then some (.elem t a c)
    else
      match findInNodes tag c with
      | some e => some e
      | none => findInNodes tag rest

/-- `element.findall(".//tag")` over a node sequence: all matching elements
in document order. -/
def findAllInNodes (tag : String) : XForest → List XTree
  | .nil => []
  | .cons (.text _) rest => findAllInNodes tag rest
  | .cons (.elem t a c) rest =>
    (if t = tag then [XTree.elem t a c] else [])
      ++ findAllInNodes tag c ++ findAllInNodes tag rest

/-- `e.find(".//tag")`: first matching descendant of `e` (not `e` itself). -/
def XTree.findDesc (e : XTree) (tag : String) : Option XTree :=
  findInNodes tag e.childrenOf

/-- `e.findall(".//tag")`: all matching descendants of `e`. -/
def XTree.findAllDesc (e : XTree) (tag : String) : List XTree :=
  findAllInNodes tag e.childrenOf

/-- First matching element in a sibling sequence (direct children only). -/
def findChildIn (tag : String) : XForest → Option XTree
  | .nil => none
  | .cons (.text _) rest => findChildIn tag rest
  | .cons (.elem t a c) rest =>
    if t = tag then some (.elem t a c) else findChildIn tag rest

/-- `e.find("tag")`: first matching direct child. -/
def XTree.findChild (e : XTree) (tag : String) : Option XTree :=
  findChildIn tag e.childrenOf

/-- `e.findtext(tag) or ""`: text of the first matching direct child, `""`
when there is none (ET's `None` results are collapsed to `""`, matching every
use in the source). -/
def XTree.findtextD (e : XTree) (tag : String) : String :=
  ((e.findChild tag).map XTree.etext).getD ""

/-- Python's `s or dflt` for strings. -/
def pyOrStr (s dflt : String) : String := if s = "" then dflt else s

/-! ## Response parsing (src/recursive_cleaner/response.py) -/

/-- A reported data-quality issue `{id, solved, description}`. -/
structure Issue where
  id : String
  solved : Bool
  description : String
deriving DecidableEq, Repr

/-- The decoded reply: issues, the proposed function (empty strings when
absent), and the chunk status. -/
structure ParsedResult where
  issues : List Issue
  name : String
  docstring : String
  code : String
  status : String
deriving DecidableEq, Repr

/-- The semantics of `ast.parse(code)` succeeding: abstracts the Python
syntax checker; theorems quantify over it. -/
def AstOk : Type := String → Bool

/-- Shallow embedding of `extract_python_block` (response.py, lines
100-113): the text of the first ` ```python ... ``` ` block, stripped, or
the whole text stripped when there is no such block. (The lazy regex
`r"```python\s*(.*?)\s*```"` with `re.DOTALL`, followed by `.strip()`,
captures exactly the stripped text between the first ` ```python ` marker
and the next ` ``` ` marker.) -/
def extract_python_block (text : String) : String :=
  let cs := text.data
  match findSubIdx ("```python".data) cs with
  | none => pyStrip text
  | some i =>
    let after := cs.drop (i + 9)
    match findSubIdx ("```".data) after with
    | none => pyStrip text
    | some j => pyStrip (String.mk (after.take j))

/-- Shallow embedding of `_parse_issues` (response.py, lines 85-97). -/
def parseIssues (analysis : XTree) : List Issue :=
  (analysis.findAllDesc "issue").map fun is =>
    { id := is.attr "id" ""
      solved := pyLower (is.attr "solved" "false") = "true"
      description := pyStrip is.etext }

/-- The detail text of the `ET.ParseError` raised on malformed XML
(abstracted to a fixed string; only the `"Invalid XML: "` prefix matters). -/
def xmlErrDetail : String := "not well-formed"

/-- The detail text of a `SyntaxError` from `ast.parse` (abstracted; only
the `"Invalid Python syntax: "` prefix matters). -/
def pySyntaxDetail : String := "invalid syntax"

/-- The `ParseError` message for self-referential code (response.py, lines
68-71). -/
def mainImportError : String :=
  "Code contains invalid __main__ import. Functions should be self-contained."

/-- `(analysis.findtext("chunk_status") or "needs_more_work").strip()` -/
def statusOf (analysis : XTree) : String :=
  pyStrip (pyOrStr (analysis.findtextD "chunk_status") "needs_more_work")

/-- The part of `parse_response` that decodes a located
`<cleaning_analysis>` element (response.py, lines 43-82). -/
def decodeAnalysis (astOk : AstOk) (analysis : XTree) : Except String ParsedResult :=
  let issues := parseIssues analysis
  match analysis.findDesc "function_to_generate" with
  | none =>
    .ok { issues, name := "", docstring := "", code := "", status := statusOf analysis }
  | some func_elem =>
    let name := pyStrip (func_elem.findtextD "name")
    let docstring := pyStrip (func_elem.findtextD "docstring")
    let codeText : String :=
      match func_elem.findChild "code" with
      | some code_elem => code_elem.etext
      | none => ""
    if codeText = "" then
      .ok { issues, name, docstring, code := "", status := statusOf analysis }
    else
      let code := extract_python_block codeText
      if ¬ astOk code then
        .error ("Invalid Python syntax: " ++ pySyntaxDetail)
      else if containsSubstr code "__main__" then
        .error mainImportError
      else
        .ok { issues, name, docstring, code, status := statusOf analysis }

/-- Shallow embedding of `parse_response` (response.py, lines 10-82).
`.error msg` models `raise ParseError(msg)`. -/
def parse_response (astOk : AstOk) (text : String) : Except String ParsedResult :=
  match xmlFromString ("<root>" ++ text ++ "</root>") with
  | none => .error ("Invalid XML: " ++ xmlErrDetail)
  | some root =>
    let analysis :=
      match findInNodes "cleaning_analysis" root.childrenOf with
      | some a => some a
      | none =>
        -- Try parsing the text directly as cleaning_analysis
        match xmlFromString text with
        | some direct =>
          if direct.tagOf ≠ "cleaning_analysis" then
            direct.findDesc "cleaning_analysis"
          else some direct
        | none => none
    match analysis with
    | none => .error "No <cleaning_analysis> element found"
    | some a => decodeAnalysis astOk a

/-! ## Prompt construction (src/recursive_cleaner/prompt.py) -/

/-- A single-quote character, as a string. -/
def apos : String := String.singleton (Char.ofNat 39)

/-- `STRUCTURED_PROMPT_TEMPLATE.format(...)` (prompt.py, lines 6-48). -/
def structuredPromptText (instructions context schema_section chunk : String) : String :=
  "You are a data cleaning expert. Analyze data and generate Python functions to fix issues.\n\n=== USER"
    ++ apos ++ "S CLEANING GOALS ===\n"
    ++ instructions
    ++ "\n\n=== EXISTING FUNCTIONS (DO NOT RECREATE) ===\n"
    ++ context ++ "\n" ++ schema_section
    ++ "\n=== DATA CHUNK ===\n" ++ chunk
    ++ "\n\n=== TASK ===\n1. List ALL data quality issues you find in the chunk\n2. Mark each as solved=\"true\" if an existing function handles it\n3. Generate code for ONLY the FIRST unsolved issue\n4. Use this EXACT format:\n\n<cleaning_analysis>\n  <issues_detected>\n    <issue id=\"1\" solved=\"true|false\">Description of issue</issue>\n  </issues_detected>\n\n  <function_to_generate>\n    <name>function_name</name>\n    <docstring>What it does, edge cases handled</docstring>\n    <code>\n```python\ndef function_name(data):\n    # Complete implementation\n    pass\n```\n    </code>\n  </function_to_generate>\n\n  <chunk_status>clean|needs_more_work</chunk_status>\n</cleaning_analysis>\n\nRULES:\n- ONE function per response\n- If all issues solved: <chunk_status>clean</chunk_status>, omit <function_to_generate>\n- Include imports inside the function or document needed imports in docstring\n- Function must be idempotent (safe to run multiple times)\n- Use ```python markdown blocks for code"

/-- `TEXT_PROMPT_TEMPLATE.format(...)` (prompt.py, lines 53-95). -/
def textPromptText (instructions context chunk : String) : String :=
  "You are a text cleaning expert. Analyze text and generate Python functions to fix issues.\n\n=== USER"
    ++ apos ++ "S CLEANING GOALS ===\n"
    ++ instructions
    ++ "\n\n=== EXISTING FUNCTIONS (DO NOT RECREATE) ===\n"
    ++ context
    ++ "\n\n=== TEXT CHUNK ===\n" ++ chunk
    ++ "\n\n=== TASK ===\n1. List ALL text quality issues (artifacts, spacing, OCR errors, formatting)\n2. Mark each as solved=\"true\" if an existing function handles it\n3. Generate code for ONLY the FIRST unsolved issue\n4. Use this EXACT format:\n\n<cleaning_analysis>\n  <issues_detected>\n    <issue id=\"1\" solved=\"true|false\">Description of issue</issue>\n  </issues_detected>\n\n  <function_to_generate>\n    <name>function_name</name>\n    <docstring>What it does, edge cases handled</docstring>\n    <code>\n```python\ndef function_name(text: str) -> str:\n    # Complete implementation\n    return text\n```\n    </code>\n  </function_to_generate>\n\n  <chunk_status>clean|needs_more_work</chunk_status>\n</cleaning_analysis>\n\nRULES:\n- ONE function per response\n- Function takes text string, returns cleaned text string\n- If all issues solved: <chunk_status>clean</chunk_status>, omit <function_to_generate>\n- Function must be idempotent (safe to run multiple times)\n- Use ```python markdown blocks for code"

/-- Shallow embedding of `build_prompt` (prompt.py, lines 98-132). -/
def build_prompt (instructions context chunk : String) (schema : String) (mode : Mode) : String :=
  match mode with
  | .text => textPromptText instructions context chunk
  | .structured =>
    let schema_section :=
      if schema ≠ "" then "\n=== DATA SCHEMA ===\n" ++ schema ++ "\n\n" else "\n"
    structuredPromptText instructions context schema_section chunk

/-! ## Context building

`src/recursive_cleaner/context.py` is not part of the snapshot (only its
caller in cleaner.py is), so the context builder is modelled from the
spec. -/

/-- The largest suffix (most recent entries) of the rendered entries whose
joined length fits the budget. -/
def pickSuffix (budget : Nat) : List String → List String
  | [] => []
  | e :: rest =>
    if (String.intercalate "\n" (e :: rest)).length ≤ budget then e :: rest
    else pickSuffix budget rest

/-- Modelled from the spec: `build_context` (context.py, absent from the
snapshot). "Renders each accepted function's name and docstring, trimmed to
a size budget (characters) [...] retains as many whole entries as fit,
preferring to drop the least-recent ones first." -/
def build_context (functions : List Func) (budget : Nat) : String :=
  String.intercalate "\n"
    (pickSuffix budget (functions.map fun f => f.name ++ ": " ++ f.docstring))

/-! ## The controller (src/recursive_cleaner/cleaner.py)

The LLM backend is abstract (`generate(prompt) -> text`); a run of the loop
is modelled against the trace of response texts the (retry-wrapped) backend
returned, indexed by chunk and iteration. -/

/-- The tuning and runtime parameters of `DataCleaner` consulted by
`_process_chunk`, with the abstracted library semantics. `schema_str` is the
formatted schema (`infer_schema`/`format_schema_for_prompt` live in
schema.py, absent from the snapshot; only the resulting string enters the
prompt). -/
structure Config where
  instructions : String
  context_budget : Nat
  schema_str : String
  mode : Mode
  validate_runtime : Bool
  max_iterations : Nat
  jsonLoads : JsonLoads
  pyExec : PyExec
  astOk : AstOk

/-- The corrective note appended to the prompt when the previous iteration
failed (cleaner.py, line 236). -/
def feedbackNote (fb : String) : String :=
  "\n\nYour previous response had an error: " ++ fb ++ "\nPlease fix and try again."

/-- The prompt sent on one iteration: context + prompt build (cleaner.py,
lines 226-236), with the corrective note appended when there is pending
error feedback. -/
def mkPrompt (cfg : Config) (functions : List Func) (chunk : String) (fb : String) : String :=
  let context := build_context functions cfg.context_budget
  let prompt := build_prompt cfg.instructions context chunk cfg.schema_str cfg.mode
  if fb ≠ "" then prompt ++ feedbackNote fb else prompt

/-- What one iteration of `_process_chunk` did. -/
inductive IterEvent where
  | parseFailed (msg : String)
  | chunkClean
  | accepted (f : Func)
  | validationFailed (fname : String) (msg : String)
  | noFunction
deriving DecidableEq, Repr

/-- Result of one iteration: the event, the accumulator afterwards, and the
`error_feedback` value afterwards. -/
structure IterOutcome where
  event : IterEvent
  functions : List Func
  feedback : String

/-- One iteration of the `_process_chunk` loop body (cleaner.py, lines
238-284), given the response text the backend returned. -/
def iterStep (cfg : Config) (chunk : String) (functions : List Func)
    (response : String) : IterOutcome :=
  match parse_response cfg.astOk response with
  | .error e => { event := .parseFailed e, functions, feedback := e }
  | .ok result =>
    -- error_feedback is cleared on parse success
    if result.status = "clean" then
      { event := .chunkClean, functions, feedback := "" }
    else if result.code ≠ "" then
      if cfg.validate_runtime then
        let sample_data := extract_sample_data cfg.jsonLoads chunk 3 cfg.mode
        let vr := validate_function cfg.pyExec result.code sample_data result.name cfg.mode
        if vr.1 then
          { event := .accepted ⟨result.name, result.docstring, result.code⟩
            functions := functions ++ [⟨result.name, result.docstring, result.code⟩]
            feedback := "" }
        else
          { event := .validationFailed result.name (vr.2.getD "")
            functions
            feedback := "Runtime validation failed: " ++ vr.2.getD "" }
      else
        { event := .accepted ⟨result.name, result.docstring, result.code⟩
          functions := functions ++ [⟨result.name, result.docstring, result.code⟩]
          feedback := "" }
    else
      { event := .noFunction, functions, feedback := "" }

/-- The log of one iteration: the pending feedback on entry, the prompt
actually sent, the event, and the accumulator afterwards. -/
structure IterRecord where
  feedbackIn : String
  prompt : String
  event : IterEvent
  functionsAfter : List Func

/-- How the chunk ended. -/
inductive ChunkExit where
  | clean
  | exhausted
deriving DecidableEq, Repr

/-- The iteration loop of `_process_chunk` (cleaner.py, lines 224-287):
`k` is the iteration index, `remaining` the iterations left of
`max_iterations`, and `responses k` the text returned by the (retry-wrapped)
backend on iteration `k`. -/
def processChunkGo (cfg : Config) (chunk : String) (responses : Nat → String) :
    Nat → Nat → List Func → String → List IterRecord × List Func × ChunkExit
  | _, 0, functions, _ => ([], functions, .exhausted)
  | k, remaining + 1, functions, feedback =>
    let prompt := mkPrompt cfg functions chunk feedback
    let out := iterStep cfg chunk functions (responses k)
    let entry : IterRecord :=
      { feedbackIn := feedback, prompt, event := out.event, functionsAfter := out.functions }
    match out.event with
    | .chunkClean => ([entry], out.functions, .clean)
    | _ =>
      let (rs, fns, ex) :=
        processChunkGo cfg chunk responses (k + 1) remaining out.functions out.feedback
      (entry :: rs, fns, ex)

/-- Shallow embedding of `DataCleaner._process_chunk` (cleaner.py, lines
219-287), returning the iteration log, the accumulator afterwards, and how
the chunk ended. -/
def _process_chunk (cfg : Config) (chunk : String) (responses : Nat → String)
    (functions : List Func) : List IterRecord × List Func × ChunkExit :=
  processChunkGo cfg chunk responses 0 cfg.max_iterations functions ""

/-- `STATE_VERSION` of cleaner.py (line 20) — distinct from the one in
state.py. -/
def CLEANER_STATE_VERSION : String := "0.3.0"

/-- The checkpoint document written by `DataCleaner._save_state`
(cleaner.py, lines 90-99). -/
structure Checkpoint where
  version : String
  file_path : String
  instructions : String
  chunk_size : Nat
  last_completed_chunk : Int
  total_chunks : Nat
  functions : List Func
  timestamp : String
deriving DecidableEq, Repr

/-- The parameters of `run` beyond those of `_process_chunk`. The wall clock
is abstracted as a fixed `timestamp`. -/
structure RunConfig extends Config where
  file_path : String
  chunk_size : Nat
  state_file_configured : Bool
  timestamp : String

/-- Shallow embedding of `DataCleaner._save_state` (cleaner.py, lines
86-103): the checkpoints persisted by one call — none when no state file is
configured, otherwise exactly the one document atomically renamed into
place. -/
def _save_state (rc : RunConfig) (last : Int) (total : Nat) (functions : List Func) :
    List Checkpoint :=
  if rc.state_file_configured then
    [{ version := CLEANER_STATE_VERSION
       file_path := rc.file_path
       instructions := rc.instructions
       chunk_size := rc.chunk_size
       last_completed_chunk := last
       total_chunks := total
       functions := functions
       timestamp := rc.timestamp }]
  else []

/-- The evolving state of `run`'s chunk loop, instrumented with the
successive values assigned to `_last_completed_chunk` and every checkpoint
persisted. -/
structure RunState where
  functions : List Func
  last_completed_chunk : Int
  lastSeq : List Int
  saves : List Checkpoint

/-- The chunk loop of `DataCleaner.run` (cleaner.py, lines 203-213): skip
chunks at or below `last_completed_chunk`, otherwise process the chunk, mark
it completed and save state. `responses i k` is the backend response on
chunk `i`, iteration `k`. -/
def runGo (rc : RunConfig) (responses : Nat → Nat → String) (total : Nat) :
    Nat → List String → RunState → RunState
  | _, [], st => st
  | i, chunk :: rest, st =>
    if (i : Int) ≤ st.last_completed_chunk then
      runGo rc responses total (i + 1) rest st
    else
      let (_, fns, _) := _process_chunk rc.toConfig chunk (responses i) st.functions
      let st' : RunState :=
        { functions := fns
          last_completed_chunk := (i : Int)
          lastSeq := st.lastSeq ++ [(i : Int)]
          saves := st.saves ++ _save_state rc (i : Int) total fns }
      runGo rc responses total (i + 1) rest st'

/-- The chunk loop of `DataCleaner.run` started on the full chunk list with
`_total_chunks = len(chunks)` (cleaner.py, lines 201-213), from
accumulator `functions0` and checkpoint position `last0` (`-1` on a fresh
run, the loaded `last_completed_chunk` on resume). -/
def runLoop (rc : RunConfig) (responses : Nat → Nat → String) (chunks : List String)
    (functions0 : List Func) (last0 : Int) : RunState :=
  runGo rc responses chunks.length 0 chunks
    { functions := functions0, last_completed_chunk := last0, lastSeq := [], saves := [] }

/-! ## Well-formed documents and rendering (for the response-protocol claims)

To state that a response "contains exactly one well-formed analysis section
surrounded by extraneous prose", we render an XML tree to its document text
and speak of responses of the form `prose ++ rendered section ++ prose`. -/

/-- Does an element with this tag occur anywhere in the node sequence? -/
def tagInForest (t : String) : XForest → Bool
  | .nil => false
  | .cons (.text _) rest => tagInForest t rest
  | .cons (.elem tg _ c) rest => tg = t || tagInForest t c || tagInForest t rest

/-- A valid, non-empty XML name. -/
def nameOk (s : String) : Bool :=
  !s.data.isEmpty && s.data.all isNameChar

/-- Non-empty character data free of markup characters (we render without
entity escaping, so well-formed text carries no raw `<` or `&`). -/
def textOk (s : String) : Bool :=
  !s.data.isEmpty && s.data.all fun c => !(c = '<' || c = '&')

/-- A well-formed attribute: a valid name and a double-quotable value. -/
def attrOk (p : String × String) : Bool :=
  nameOk p.1 && p.2.data.all fun c => !(c = '"' || c = '<' || c = '&')

mutual

/-- Well-formed tree: valid names, quotable attributes, non-empty
markup-free character data. -/
def wfT : XTree → Bool
  | .text s => textOk s
  | .elem t a c => nameOk t && a.all attrOk && wfF c

/-- Well-formed node sequence: each node well-formed and no two adjacent
text nodes (parse trees are text-merged). -/
def wfF : XForest → Bool
  | .nil => true
  | .cons (.text _) (.cons (.text _) _) => false
  | .cons h t => wfT h && wfF t

end

/-- Render an attribute list (` key="value"` each). -/
def renderAttrs : List (String × String) → String
  | [] => ""
  | (k, v) :: rest => " " ++ k ++ "=\"" ++ v ++ "\"" ++ renderAttrs rest

mutual

/-- Render a tree back to document text. -/
def renderT : XTree → String
  | .text s => s
  | .elem t a c => "<" ++ t ++ renderAttrs a ++ ">" ++ renderF c ++ "</" ++ t ++ ">"

/-- Render a node sequence back to document text. -/
def renderF : XForest → String
  | .nil => ""
  | .cons h t => renderT h ++ renderF t

end

mutual

/-- Parsing-depth measure of a tree (used only to discharge parser fuel). -/
def sizeT : XTree → Nat
  | .text _ => 1
  | .elem _ a c => sizeF c + a.length + 2

/-- Parsing-depth measure of a node sequence. -/
def sizeF : XForest → Nat
  | .nil => 0
  | .cons h t => sizeT h + sizeF t + 1

end

/-- Prose that is plain XML character data: no `<`, no `&` (may be empty). -/
def proseOk (s : String) : Bool :=
  s.data.all fun c => !(c = '<' || c = '&')

/-- The `error_feedback` value an iteration leaves behind, as a function of
its event: the parse diagnostic, the prefixed validation diagnostic, or
empty after a successful iteration. -/
def feedbackFromEvent : IterEvent → String
  | .parseFailed m => m
  | .validationFailed _ m => "Runtime validation failed: " ++ m
  | _ => ""

/-- How two consecutive iteration records of one chunk relate: the later
iteration's pending feedback is exactly the earlier one's outcome feedback,
and its prompt is built over the earlier one's accumulator with that
feedback. -/
def promptLink (cfg : Config) (chunk : String) (r r' : IterRecord) : Prop :=
  r'.feedbackIn = feedbackFromEvent r.event
  ∧ r'.prompt = mkPrompt cfg r.functionsAfter chunk (feedbackFromEvent r.event)

/-! # Theorems -/

/-! ## Order properties of Python string comparison -/

theorem pyCharsLt_irrefl (l : List Char) : pyCharsLt l l = false := by
  induction l with
  | nil => rfl
  | cons a as ih => simp [pyCharsLt, ih]

theorem pyCharsLt_eq_of_not :
    ∀ {a b : List Char}, pyCharsLt a b = false → pyCharsLt b a = false → a = b := by
  intro a
  induction a with
  | nil =>
    intro b h1 _
    cases b with
    | nil => rfl
    | cons y ys => simp [pyCharsLt] at h1
  | cons x xs ih =>
    intro b h1 h2
    cases b with
    | nil => simp [pyCharsLt] at h2
    | cons y ys =>
      by_cases hxy : x.toNat < y.toNat
      · simp [pyCharsLt, hxy] at h1
      · by_cases hyx : y.toNat < x.toNat
        · simp [pyCharsLt, hyx] at h2
        · have hc : x = y := Char.eq_of_val_eq (UInt32.ext (by
            simp only [Char.toNat] at hxy hyx
            omega))
          have h1' : pyCharsLt xs ys = false := by
            simpa [pyCharsLt, hxy, hyx] using h1
          have h2' : pyCharsLt ys xs = false := by
            simpa [pyCharsLt, hxy, hyx] using h2
          rw [hc, ih h1' h2']

theorem pyCharsLt_trans :
    ∀ {a b c : List Char}, pyCharsLt a b = true → pyCharsLt b c = true →
      pyCharsLt a c = true := by
  intro a
  induction a with
  | nil =>
    intro b c h1 h2
    cases b with
    | nil => simp [pyCharsLt] at h1
    | cons y ys =>
      cases c with
      | nil => simp [pyCharsLt] at h2
      | cons z zs => simp [pyCharsLt]
  | cons x xs ih =>
    intro b c h1 h2
    cases b with
    | nil => simp [pyCharsLt] at h1
    | cons y ys =>
      cases c with
      | nil => simp [pyCharsLt] at h2
      | cons z zs =>
        by_cases hxy : x.toNat < y.toNat
        · by_cases hyz : y.toNat < z.toNat
          · simp [pyCharsLt, show x.toNat < z.toNat by omega]
          · by_cases hzy : z.toNat < y.toNat
            · simp [pyCharsLt, hyz, hzy] at h2
            · simp [pyCharsLt, show x.toNat < z.toNat by omega]
        · by_cases hyx : y.toNat < x.toNat
          · simp [pyCharsLt, hxy, hyx] at h1
          · by_cases hyz : y.toNat < z.toNat
            · simp [pyCharsLt, show x.toNat < z.toNat by omega]
            · by_cases hzy : z.toNat < y.toNat
              · simp [pyCharsLt, hyz, hzy] at h2
              · have h1' : pyCharsLt xs ys = true := by
                  simpa [pyCharsLt, hxy, hyx] using h1
                have h2' : pyCharsLt ys zs = true := by
                  simpa [pyCharsLt, hyz, hzy] using h2
                simp [pyCharsLt, show ¬ x.toNat < z.toNat by omega,
                  show ¬ z.toNat < x.toNat by omega, ih h1' h2']

theorem pyStrLeRel_iff (a b : String) :
    pyStrLeRel a b ↔ pyCharsLt b.data a.data = false := by
  simp [pyStrLeRel, pyStrLe]

instance : IsTotal String pyStrLeRel := by
  constructor
  intro a b
  rw [pyStrLeRel_iff, pyStrLeRel_iff]
  by_cases h : pyCharsLt b.data a.data = false
  · exact Or.inl h
  · refine Or.inr ?_
    rw [Bool.not_eq_false] at h
    by_contra h2
    rw [Bool.not_eq_false] at h2
    have := pyCharsLt_trans h h2
    rw [pyCharsLt_irrefl] at this
    exact Bool.false_ne_true this

instance : IsTrans String pyStrLeRel := by
  constructor
  intro a b c h1 h2
  rw [pyStrLeRel_iff] at h1 h2 ⊢
  by_contra hca
  rw [Bool.not_eq_false] at hca
  by_cases hbc : pyCharsLt b.data c.data = true
  · have : pyCharsLt b.data a.data = true := pyCharsLt_trans hbc hca
    rw [h1] at this
    exact Bool.false_ne_true this
  · rw [Bool.not_eq_true] at hbc
    have : b.data = c.data := pyCharsLt_eq_of_not hbc h2
    rw [← this, h1] at hca
    exact Bool.false_ne_true hca

instance : IsAntisymm String pyStrLeRel := by
  constructor
  intro a b h1 h2
  rw [pyStrLeRel_iff] at h1 h2
  have : b.data = a.data := pyCharsLt_eq_of_not h1 h2
  cases a
  cases b
  exact congrArg String.mk this.symm

/-! ## First-occurrence deduplication of imports (C10) -/

theorem mem_seenFoldStr (x : String) :
    ∀ (l seen : List String), x ∈ seenFoldStr seen l ↔ x ∈ l ∧ x ∉ seen := by
  intro l
  induction l with
  | nil => intro seen; simp [seenFoldStr]
  | cons i rest ih =>
    intro seen
    by_cases h : i ∈ seen
    · rw [seenFoldStr, if_pos h, ih]
      have : x = i → x ∈ seen := fun he => he ▸ h
      simp only [List.mem_cons]
      tauto
    · rw [seenFoldStr, if_neg h]
      simp only [List.mem_cons, ih, List.mem_cons]
      have : x = i → x ∉ seen := fun he => he ▸ h
      tauto

theorem nodup_seenFoldStr : ∀ (l seen : List String), (seenFoldStr seen l).Nodup := by
  intro l
  induction l with
  | nil => intro seen; simp [seenFoldStr]
  | cons i rest ih =>
    intro seen
    by_cases h : i ∈ seen
    · rw [seenFoldStr, if_pos h]; exact ih seen
    · rw [seenFoldStr, if_neg h]
      refine List.nodup_cons.mpr ⟨?_, ih (i :: seen)⟩
      rw [mem_seenFoldStr]
      intro ⟨_, hn⟩
      exact hn (List.mem_cons_self i seen)

/-- **C10.** `deduplicate_imports` returns a duplicate-free list that is
sorted by Python string comparison — not in first-occurrence order: the
result has no duplicates, is `pyStrLeRel`-sorted, has exactly the members of
the input, and is therefore independent of the order (and multiplicity) in
which the imports appeared, so the hoisted import block of the composition
is ordered by string comparison regardless of the order imports appeared in
the accepted functions. -/
theorem claim_C10 (imports : List String) :
    (deduplicate_imports imports).Nodup
    ∧ List.Sorted pyStrLeRel (deduplicate_imports imports)
    ∧ (∀ s, s ∈ deduplicate_imports imports ↔ s ∈ imports)
    ∧ ∀ imports' : List String, (∀ s, s ∈ imports ↔ s ∈ imports') →
        deduplicate_imports imports = deduplicate_imports imports' := by
  have hnd : ∀ l : List String, (deduplicate_imports l).Nodup := fun l =>
    (List.perm_insertionSort pyStrLeRel (seenFoldStr [] l)).symm.nodup
      (nodup_seenFoldStr l [])
  have hsort : ∀ l : List String, List.Sorted pyStrLeRel (deduplicate_imports l) := fun l =>
    List.sorted_insertionSort pyStrLeRel (seenFoldStr [] l)
  have hmem : ∀ (l : List String) (s : String), s ∈ deduplicate_imports l ↔ s ∈ l := by
    intro l s
    rw [deduplicate_imports,
      (List.perm_insertionSort pyStrLeRel (seenFoldStr [] l)).mem_iff,
      mem_seenFoldStr]
    simp
  refine ⟨hnd imports, hsort imports, hmem imports, ?_⟩
  intro imports' hiff
  have hperm : (deduplicate_imports imports).Perm (deduplicate_imports imports') := by
    refine List.perm_of_nodup_nodup_toFinset_eq (hnd imports) (hnd imports') ?_
    ext s
    simp only [List.mem_toFinset]
    rw [hmem, hmem]
    exact hiff s
  exact List.eq_of_perm_of_sorted hperm (hsort imports) (hsort imports')

/-- Concrete instance of C10: a duplicated, unsorted import list comes out
deduplicated and sorted, and equals the result from the same imports in
another order. -/
theorem claim_C10_witness :
    deduplicate_imports ["import zlib", "import ast", "import zlib"]
        = ["import ast", "import zlib"]
    ∧ (deduplicate_imports ["import zlib", "import ast", "import zlib"]).Nodup
    ∧ deduplicate_imports ["import zlib", "import ast", "import zlib"]
        = deduplicate_imports ["import ast", "import zlib"] := by
  obtain ⟨h1, _, _, h4⟩ := claim_C10 ["import zlib", "import ast", "import zlib"]
  refine ⟨by decide, h1, h4 _ ?_⟩
  intro s
  simp only [List.mem_cons, List.not_mem_nil]
  tauto

/-! ## First-occurrence deduplication of functions (C8) -/

theorem dedupFuncsGo_fst :
    ∀ (l : List Func) (seen : List String),
      (dedupFuncsGo seen l).1 = firstOccDedup (l.filter fun f => f.name ∉ seen) := by
  intro l
  induction l with
  | nil => intro seen; simp [dedupFuncsGo, firstOccDedup]
  | cons f rest ih =>
    intro seen
    by_cases h : f.name ∈ seen
    · rw [dedupFuncsGo, if_pos h]
      have : (rest.filter fun g => g.name ∉ seen)
          = ((f :: rest).filter fun g => g.name ∉ seen) := by
        simp [List.filter_cons, h]
      rw [← this, ← ih seen]
    · rw [dedupFuncsGo, if_neg h]
      have hcons : ((f :: rest).filter fun g => g.name ∉ seen)
          = f :: (rest.filter fun g => g.name ∉ seen) := by
        simp [List.filter_cons, h]
      rw [hcons, firstOccDedup]
      have hff : ((rest.filter fun g => g.name ∉ seen).filter fun g => g.name ≠ f.name)
          = rest.filter fun g => g.name ∉ f.name :: seen := by
        rw [List.filter_filter]
        refine List.filter_congr ?_
        intro g _
        simp only [List.mem_cons, decide_not]
        rcases Decidable.em (g.name = f.name) with he | he <;> simp [he]
      rw [hff, ← ih (f.name :: seen)]

theorem dedupFuncsGo_length :
    ∀ (l : List Func) (seen : List String),
      (dedupFuncsGo seen l).2.length + (dedupFuncsGo seen l).1.length = l.length := by
  intro l
  induction l with
  | nil => intro seen; rfl
  | cons f rest ih =>
    intro seen
    by_cases h : f.name ∈ seen
    · rw [dedupFuncsGo, if_pos h]
      have := ih seen
      simp only [List.length_cons]
      omega
    · rw [dedupFuncsGo, if_neg h]
      have := ih (f.name :: seen)
      simp only [List.length_cons]
      omega

theorem dedupFuncsGo_all_kept :
    ∀ (l : List Func) (seen : List String),
      (dedupFuncsGo seen l).2 = [] → (dedupFuncsGo seen l).1 = l := by
  intro l
  induction l with
  | nil => intro seen _; rfl
  | cons f rest ih =>
    intro seen hw
    by_cases h : f.name ∈ seen
    · rw [dedupFuncsGo, if_pos h] at hw
      exact absurd hw (by simp)
    · rw [dedupFuncsGo, if_neg h] at hw ⊢
      simp only at hw ⊢
      rw [ih (f.name :: seen) hw]

theorem dedupFuncsGo_names :
    ∀ (l : List Func) (seen : List String),
      ((dedupFuncsGo seen l).1.map Func.name).Nodup
      ∧ ∀ n ∈ (dedupFuncsGo seen l).1.map Func.name, n ∉ seen := by
  intro l
  induction l with
  | nil => intro seen; simp [dedupFuncsGo]
  | cons f rest ih =>
    intro seen
    by_cases h : f.name ∈ seen
    · rw [dedupFuncsGo, if_pos h]
      exact ih seen
    · rw [dedupFuncsGo, if_neg h]
      obtain ⟨ihnd, ihns⟩ := ih (f.name :: seen)
      simp only [List.map_cons]
      constructor
      · refine List.nodup_cons.mpr ⟨?_, ihnd⟩
        intro hmem
        exact ihns _ hmem (List.mem_cons_self _ _)
      · intro n hn
        rcases List.mem_cons.mp hn with he | hm
        · exact he ▸ h
        · intro hs
          exact ihns n hm (List.mem_cons_of_mem _ hs)

theorem dedupFuncsGo_warns :
    ∀ (l : List Func) (seen : List String),
      ∀ w ∈ (dedupFuncsGo seen l).2, ∃ n, w = dupWarning n ∧
        (n ∈ seen ∨ n ∈ (dedupFuncsGo seen l).1.map Func.name) := by
  intro l
  induction l with
  | nil => intro seen w hw; simp [dedupFuncsGo] at hw
  | cons f rest ih =>
    intro seen w hw
    by_cases h : f.name ∈ seen
    · rw [dedupFuncsGo, if_pos h] at hw ⊢
      simp only [List.mem_cons] at hw
      rcases hw with he | hm
      · exact ⟨f.name, he, Or.inl h⟩
      · exact ih seen w hm
    · rw [dedupFuncsGo, if_neg h] at hw ⊢
      simp only at hw ⊢
      obtain ⟨n, hwn, hloc⟩ := ih (f.name :: seen) w hw
      refine ⟨n, hwn, ?_⟩
      rcases hloc with hs | hk
      · rcases List.mem_cons.mp hs with he | hm
        · exact Or.inr (by simp [he])
        · exact Or.inl hm
      · exact Or.inr (by simp [hk])

/-- **C8.** When the accumulator contains two or more functions sharing a
name, the merged composition retains exactly the first occurrence of each
name in acceptance order — `deduplicate_functions` returns the
first-occurrence deduplication, with duplicate-free names — and one warning
is emitted per dropped duplicate (dropped + retained counts add up to the
input count, and every warning names a retained function). The content
written by `write_cleaning_file` is assembled from exactly that deduplicated
list. -/
theorem claim_C8 (functions : List Func) (astOk : AstOk)
    (hdup : ¬ (functions.map Func.name).Nodup) :
    (deduplicate_functions functions).1 = firstOccDedup functions
    ∧ ((deduplicate_functions functions).1.map Func.name).Nodup
    ∧ (deduplicate_functions functions).2.length
        + (deduplicate_functions functions).1.length = functions.length
    ∧ (deduplicate_functions functions).2 ≠ []
    ∧ (∀ w ∈ (deduplicate_functions functions).2,
        ∃ n, w = dupWarning n ∧ n ∈ (deduplicate_functions functions).1.map Func.name)
    ∧ write_cleaning_file astOk functions =
        (if astOk (cleaningContent (deduplicate_functions functions).1) then
          .ok (cleaningContent (deduplicate_functions functions).1,
            (deduplicate_functions functions).2)
        else .error "Generated output has invalid Python syntax") := by
  have hne : functions.isEmpty = false := by
    cases functions with
    | nil => exact absurd List.nodup_nil hdup
    | cons f rest => rfl
  have hfst : (deduplicate_functions functions).1 = firstOccDedup functions := by
    rw [deduplicate_functions, dedupFuncsGo_fst]
    congr 1
    refine List.filter_eq_self.mpr ?_
    intro f _
    simp
  refine ⟨hfst, (dedupFuncsGo_names functions []).1, dedupFuncsGo_length functions [], ?_, ?_, ?_⟩
  · intro hw
    have hall := dedupFuncsGo_all_kept functions [] hw
    have : (functions.map Func.name).Nodup := by
      rw [← hall]
      exact (dedupFuncsGo_names functions []).1
    exact hdup this
  · intro w hw
    obtain ⟨n, hwn, hloc⟩ := dedupFuncsGo_warns functions [] w hw
    refine ⟨n, hwn, ?_⟩
    rcases hloc with hs | hk
    · exact absurd hs (List.not_mem_nil n)
    · exact hk
  · rw [write_cleaning_file, hne]
    simp only [Bool.false_eq_true, if_false]

/-- Concrete instance of C8: two accepted `normalize` functions — the
composition retains only the first, and one duplicate warning is emitted. -/
theorem claim_C8_witness :
    (deduplicate_functions
        [⟨"normalize", "first", "def normalize(data):\n    return data"⟩,
         ⟨"normalize", "second", "def normalize(data):\n    return data\n"⟩]).1
      = [⟨"normalize", "first", "def normalize(data):\n    return data"⟩]
    ∧ (deduplicate_functions
        [⟨"normalize", "first", "def normalize(data):\n    return data"⟩,
         ⟨"normalize", "second", "def normalize(data):\n    return data\n"⟩]).2
      = [dupWarning "normalize"] := by
  have h := claim_C8
    [⟨"normalize", "first", "def normalize(data):\n    return data"⟩,
     ⟨"normalize", "second", "def normalize(data):\n    return data\n"⟩]
    (fun _ => true) (by decide)
  refine ⟨?_, by decide⟩
  rw [h.1]
  simp [firstOccDedup]

/-! ## Checkpoint loading (C3)

`load_state` (state.py) validates only the recorded `file_path` (and that
the file is valid JSON); the recorded `version` is never consulted, although
`save_state` records one (`STATE_VERSION = "0.5.0"`) and the spec requires
incompatible versions to be rejected. -/

/-- **C3 counterexample.** A checkpoint recording version `"0.0.1"` — which
differs from the loader's `STATE_VERSION` — loads successfully (no error)
when the `file_path` matches, so a version mismatch does not make loading
fail. -/
theorem claim_C3_counterexample :
    ("0.0.1" : String) ≠ STATE_VERSION
    ∧ load_state
        (.ok { version := some "0.0.1"
               file_path := some "data.jsonl"
               last_completed_chunk := some 0
               total_chunks := some 2 })
        "data.jsonl"
      = .ok { functions := [], last_completed_chunk := 0, total_chunks := 2 } := by
  refine ⟨by decide, ?_⟩
  rfl

/-- **C3 (amended).** Loading a checkpoint never consults the recorded
version: the outcome of `load_state` is unchanged under any rewrite of the
`version` field, loading fails exactly when the recorded `file_path` differs
from the expected one (or the document is not valid JSON), and otherwise
succeeds with the recorded fields regardless of the version. -/
theorem claim_C3 (st : StateDoc) (v : Option String) (p : String) :
    load_state (.ok { st with version := v }) p = load_state (.ok st) p
    ∧ (st.file_path ≠ some p → ∃ m, load_state (.ok st) p = .error m)
    ∧ (st.file_path = some p →
        load_state (.ok st) p
          = .ok { functions := st.functions.getD []
                  last_completed_chunk := st.last_completed_chunk.getD (-1)
                  total_chunks := st.total_chunks.getD 0 }) := by
  refine ⟨?_, ?_, ?_⟩
  · rw [load_state, load_state]
  · intro hne
    rw [load_state, if_pos hne]
    exact ⟨_, rfl⟩
  · intro he
    rw [load_state, if_neg (by simp [he])]

/-- Concrete instance of the amended C3: rewriting the version of a
checkpoint does not change the loading outcome, and a `file_path` mismatch
fails. -/
theorem claim_C3_witness :
    load_state
        (.ok { version := some "0.0.1", file_path := some "data.jsonl",
               total_chunks := some 2 }) "data.jsonl"
      = load_state
          (.ok { version := some STATE_VERSION, file_path := some "data.jsonl",
                 total_chunks := some 2 }) "data.jsonl"
    ∧ ∃ m, load_state
        (.ok { version := some STATE_VERSION, file_path := some "other.jsonl",
               total_chunks := some 2 }) "data.jsonl"
      = .error m := by
  constructor
  · exact (claim_C3
      { version := some STATE_VERSION, file_path := some "data.jsonl",
        total_chunks := some 2 } (some "0.0.1") "data.jsonl").1
  · exact (claim_C3
      { version := some STATE_VERSION, file_path := some "other.jsonl",
        total_chunks := some 2 } (some STATE_VERSION) "data.jsonl").2.1 (by decide)

/-! ## Text chunking has no overlap (C4)

The spec (and the claim) say text-mode chunks share a bounded overlap
governed by a configured `chunk_overlap` — and `DataCleaner.run` indeed
passes `mode=` and `chunk_overlap=` keywords to `chunk_file` — but the
`chunk_file` in parsers.py accepts neither keyword, and its `_chunk_text`
steps by the full character budget: the raw slices concatenate exactly back
to the input, so consecutive chunks share no characters at all. -/

/-- **C4 (code is wrong).** The text chunker produces a partition, not
overlapping windows: the slices of `_chunk_text`'s loop concatenate exactly
to the input (hence consecutive chunks are disjoint, overlap zero), both in
general and for the `chunk_size * 80` budget `chunk_file` uses; concretely,
`"abcdefgh"` with budget `3` yields the disjoint chunks
`["abc", "def", "gh"]`. -/
theorem claim_C4 :
    (∀ (fuel c : Nat) (cs : List Char), 0 < c → cs.length ≤ fuel →
      (chunkTextGo c fuel cs).flatten = cs)
    ∧ (∀ (content : String) (chunk_size : Nat), 0 < chunk_size →
      (chunkTextGo (chunk_size * 80) content.data.length content.data).flatten
        = content.data)
    ∧ _chunk_text "abcdefgh" 3 = ["abc", "def", "gh"] := by
  have key : ∀ (fuel c : Nat) (cs : List Char), 0 < c → cs.length ≤ fuel →
      (chunkTextGo c fuel cs).flatten = cs := by
    intro fuel
    induction fuel with
    | zero =>
      intro c cs _ hl
      cases cs with
      | nil => rfl
      | cons x xs => simp at hl
    | succ n ih =>
      intro c cs hc hl
      cases cs with
      | nil => rfl
      | cons x xs =>
        rw [chunkTextGo, List.flatten_cons, ih c ((x :: xs).drop c) hc ?_,
          List.take_append_drop]
        simp only [List.length_drop, List.length_cons]
        simp only [List.length_cons] at hl
        omega
  refine ⟨key, ?_, by decide⟩
  intro content chunk_size hcs
  exact key content.data.length (chunk_size * 80) content.data (by omega) le_rfl

/-- Concrete instance of C4: the chunks of an 8-character text with budget 3
concatenate exactly back to the text — zero overlap. -/
theorem claim_C4_witness :
    (chunkTextGo 3 ("abcdefgh".data.length) "abcdefgh".data).flatten = "abcdefgh".data :=
  claim_C4.1 ("abcdefgh".data.length) 3 "abcdefgh".data (by decide) (by decide)

/-! ## Vacuous validation on unparseable chunks (C6) -/

theorem extractLines_nil (jsonLoads : JsonLoads) :
    ∀ (lines : List String) (cnt : Nat),
      (∀ l ∈ lines, loadsDict jsonLoads (pyStrip l) = false) →
      extractLines jsonLoads 3 cnt lines = [] := by
  intro lines
  induction lines with
  | nil => intro cnt _; rfl
  | cons l ls ih =>
    intro cnt h
    have hl := h l (List.mem_cons_self l ls)
    have hls : ∀ x ∈ ls, loadsDict jsonLoads (pyStrip x) = false :=
      fun x hx => h x (List.mem_cons_of_mem l hx)
    rw [extractLines]
    by_cases he : pyStrip l = ""
    · rw [if_pos he]
      exact ih cnt hls
    · rw [if_neg he]
      rw [loadsDict] at hl
      match hm : jsonLoads (pyStrip l) with
      | none => exact ih cnt hls
      | some (.pstr s) => exact ih cnt hls
      | some (.plist es) => exact ih cnt hls
      | some (.pother t) => exact ih cnt hls
      | some (.pdict d) => rw [hm] at hl; simp at hl

/-- **C6.** A chunk none of whose (stripped, non-empty) lines decodes to a
JSON object — a CSV chunk, say — yields an empty structured sample list; an
empty sample list makes `validate_function` succeed without consulting the
Python runtime at all (the result is `(true, none)` for *every* behaviour of
`exec`); hence on such chunks every candidate function, even one that could
not be loaded, passes the runtime validation gate. -/
theorem claim_C6 (jsonLoads : JsonLoads) (chunk : String)
    (hnone : ∀ l ∈ splitNl (pyStrip chunk), loadsDict jsonLoads (pyStrip l) = false) :
    extract_sample_data jsonLoads chunk 3 .structured = .records []
    ∧ (∀ (pyExec : PyExec) (code function_name : String),
        validate_function pyExec code (.records []) function_name .structured = (true, none))
    ∧ (∀ (pyExec : PyExec) (code function_name : String),
        validate_function pyExec code (extract_sample_data jsonLoads chunk 3 .structured)
          function_name .structured = (true, none)) := by
  have hex : extract_sample_data jsonLoads chunk 3 .structured = .records [] := by
    rw [extract_sample_data]
    rw [extractLines_nil jsonLoads _ 0 hnone]
  have hvf : ∀ (pyExec : PyExec) (code function_name : String),
      validate_function pyExec code (.records []) function_name .structured = (true, none) := by
    intro pyExec code function_name
    rfl
  exact ⟨hex, hvf, fun pyExec code fn => by rw [hex]; exact hvf pyExec code fn⟩

/-- Concrete instance of C6: a CSV chunk under a `json.loads` that decodes
none of its lines — validation passes even for a function whose code raises
at load time. -/
theorem claim_C6_witness :
    validate_function (fun _ => .error ⟨"SyntaxError", "bad code"⟩) "def ("
        (extract_sample_data (fun _ => none) "name,age\nAlice,30\nBob,25" 3 .structured)
        "clean_rows" .structured = (true, none) :=
  (claim_C6 (fun _ => none) "name,age\nAlice,30\nBob,25" (by decide)).2.2
    (fun _ => .error ⟨"SyntaxError", "bad code"⟩) "def (" "clean_rows"

/-! ## The runtime validation gate (C1) -/

theorem validateRecords_false_of_raises (func : PyFun) :
    ∀ (rs : List PyVal) (i : Nat),
      (∃ r ∈ rs, ∃ e, func r = .error e) →
      (validateRecords func i rs).1 = false := by
  intro rs
  induction rs with
  | nil => intro i h; simp at h
  | cons r rest ih =>
    intro i h
    rw [validateRecords]
    match hm : func r with
    | .error e => rfl
    | .ok v =>
      obtain ⟨r2, hmem, e, he⟩ := h
      rcases List.mem_cons.mp hmem with he2 | hmem2
      · rw [he2, hm] at he
        exact absurd he (by simp)
      · exact ih (i + 1) ⟨r2, hmem2, e, he⟩

theorem validateRecords_true_shape (func : PyFun) :
    ∀ (rs : List PyVal) (i : Nat), (validateRecords func i rs).1 = true →
      validateRecords func i rs = (true, none) ∧ ∀ r ∈ rs, ∃ v, func r = .ok v := by
  intro rs
  induction rs with
  | nil => intro i _; exact ⟨rfl, by simp⟩
  | cons r rest ih =>
    intro i h
    rw [validateRecords] at h ⊢
    match hm : func r with
    | .error e => rw [hm] at h; simp at h
    | .ok v =>
      rw [hm] at h
      obtain ⟨hsh, hall⟩ := ih (i + 1) h
      refine ⟨hsh, ?_⟩
      intro x hx
      rcases List.mem_cons.mp hx with he | hmem
      · exact ⟨v, he ▸ hm⟩
      · exact hall x hmem

/-- **C1.** With runtime validation enabled in structured mode: when the
parsed response proposes a function whose code loads (`exec` succeeds and
the name resolves to `func`) and the chunk yields a non-empty sample set,
then (a) if invoking `func` raises on any sample, `validate_function`
returns a failure verdict and the iteration leaves the accumulator
untouched, and (b) whenever the iteration changes the accumulator at all, it
appended exactly the proposed function at the end, the validation verdict
was a success, and every sample executed without raising. -/
theorem claim_C1 (cfg : Config) (chunk : String) (functions : List Func)
    (response : String) (result : ParsedResult)
    (env : String → Option PyFun) (func : PyFun) (rs : List PyVal)
    (hmode : cfg.mode = .structured)
    (hvr : cfg.validate_runtime = true)
    (hparse : parse_response cfg.astOk response = .ok result)
    (hstatus : result.status ≠ "clean")
    (hcode : result.code ≠ "")
    (hsam : extract_sample_data cfg.jsonLoads chunk 3 .structured = .records rs)
    (hne : rs ≠ [])
    (hexec : cfg.pyExec result.code = .ok env)
    (hlook : env result.name = some func) :
    ((∃ r ∈ rs, ∃ e, func r = .error e) →
      (validate_function cfg.pyExec result.code (.records rs) result.name .structured).1 = false
      ∧ (iterStep cfg chunk functions response).functions = functions)
    ∧ ((iterStep cfg chunk functions response).functions ≠ functions →
      (iterStep cfg chunk functions response).functions
          = functions ++ [⟨result.name, result.docstring, result.code⟩]
      ∧ validate_function cfg.pyExec result.code (.records rs) result.name .structured
          = (true, none)
      ∧ ∀ r ∈ rs, ∃ v, func r = .ok v) := by
  obtain ⟨r0, rs0, rfl⟩ : ∃ r0 rs0, rs = r0 :: rs0 := by
    cases rs with
    | nil => exact absurd rfl hne
    | cons a l => exact ⟨a, l, rfl⟩
  have hval : validate_function cfg.pyExec result.code (.records (r0 :: rs0))
      result.name .structured = validateRecords func 0 (r0 :: rs0) := by
    rw [validate_function]
    rw [if_neg (by simp [SampleData.isFalsy])]
    rw [if_neg (by simp [SampleData.isFalsy])]
    rw [hexec]
    simp only [hlook]
    rfl
  have histep : iterStep cfg chunk functions response =
      (if (validateRecords func 0 (r0 :: rs0)).1 then
        { event := .accepted ⟨result.name, result.docstring, result.code⟩
          functions := functions ++ [⟨result.name, result.docstring, result.code⟩]
          feedback := "" }
      else
        { event := .validationFailed result.name
            ((validateRecords func 0 (r0 :: rs0)).2.getD "")
          functions := functions
          feedback := "Runtime validation failed: "
            ++ (validateRecords func 0 (r0 :: rs0)).2.getD "" }) := by
    rw [iterStep, hparse]
    simp only [if_neg hstatus, if_pos hcode, hvr, hmode, hsam, hval]
    simp
  constructor
  · intro hraise
    have hfalse := validateRecords_false_of_raises func (r0 :: rs0) 0 hraise
    rw [hval, hfalse]
    refine ⟨rfl, ?_⟩
    rw [histep, if_neg (by rw [hfalse]; exact Bool.false_ne_true)]
  · intro hchanged
    rw [histep] at hchanged ⊢
    by_cases hvb : (validateRecords func 0 (r0 :: rs0)).1 = true
    · obtain ⟨hsh, hall⟩ := validateRecords_true_shape func (r0 :: rs0) 0 hvb
      rw [if_pos hvb]
      exact ⟨rfl, by rw [hval, hsh], hall⟩
    · rw [if_neg hvb] at hchanged
      exact absurd rfl hchanged

set_option maxRecDepth 4000 in
/-- Concrete instance of C1: a function raising `KeyError` on the single
sample record is rejected and the accumulator is left unchanged. -/
theorem claim_C1_witness :
    (validate_function
        (fun _ => .ok fun n => if n = "bad_processor"
          then some (fun _ => .error ⟨"KeyError", "nonexistent_field"⟩) else none)
        "def bad_processor(data):\n    return data123"
        (.records [.pdict []]) "bad_processor" .structured).1 = false
    ∧ (iterStep
        { instructions := "", context_budget := 8000, schema_str := "", mode := .structured
          validate_runtime := true, max_iterations := 5
          jsonLoads := fun s => if s = "+" then some (.pdict []) else none
          pyExec := fun _ => .ok fun n => if n = "bad_processor"
            then some (fun _ => .error ⟨"KeyError", "nonexistent_field"⟩) else none
          astOk := fun _ => true }
        "+"
        []
        "<cleaning_analysis><function_to_generate><name>bad_processor</name><docstring>d</docstring><code>def bad_processor(data):\n    return data123</code></function_to_generate><chunk_status>needs_more_work</chunk_status></cleaning_analysis>").functions
      = [] := by
  have h := claim_C1
    { instructions := "", context_budget := 8000, schema_str := "", mode := .structured
      validate_runtime := true, max_iterations := 5
      jsonLoads := fun s => if s = "+" then some (.pdict []) else none
      pyExec := fun _ => .ok fun n => if n = "bad_processor"
        then some (fun _ => .error ⟨"KeyError", "nonexistent_field"⟩) else none
      astOk := fun _ => true }
    "+"
    []
    "<cleaning_analysis><function_to_generate><name>bad_processor</name><docstring>d</docstring><code>def bad_processor(data):\n    return data123</code></function_to_generate><chunk_status>needs_more_work</chunk_status></cleaning_analysis>"
    { issues := [], name := "bad_processor", docstring := "d"
      code := "def bad_processor(data):\n    return data123"
      status := "needs_more_work" }
    (fun n => if n = "bad_processor"
      then some (fun _ => .error ⟨"KeyError", "nonexistent_field"⟩) else none)
    (fun _ => .error ⟨"KeyError", "nonexistent_field"⟩)
    [.pdict []]
    rfl rfl rfl (by decide) (by decide) rfl (by simp) rfl rfl
  obtain ⟨h1, h2⟩ := h.1 ⟨.pdict [], List.mem_cons_self _ _, ⟨"KeyError", "nonexistent_field"⟩, rfl⟩
  exact ⟨h1, h2⟩

/-! ## Run-loop invariants (C2) -/

theorem runGo_lastSeq_saves (rc : RunConfig) (responses : Nat → Nat → String) (total : Nat) :
    ∀ (cs : List String) (i : Nat) (st : RunState),
      (runGo rc responses total i cs st).lastSeq
        = st.lastSeq
          ++ ((List.range' i cs.length).filter
              (fun (j : Nat) => st.last_completed_chunk < (j : Int))).map (fun (j : Nat) => (j : Int))
      ∧ (rc.state_file_configured = true →
        (runGo rc responses total i cs st).saves.map (·.last_completed_chunk)
          = st.saves.map (·.last_completed_chunk)
            ++ ((List.range' i cs.length).filter
                (fun (j : Nat) => st.last_completed_chunk < (j : Int))).map (fun (j : Nat) => (j : Int))) := by
  intro cs
  induction cs with
  | nil =>
    intro i st
    constructor
    · simp [runGo, List.range']
    · intro _; simp [runGo, List.range']
  | cons c cs' ih =>
    intro i st
    rw [runGo]
    simp only [List.length_cons, List.range'_succ, List.filter_cons]
    by_cases h : (i : Int) ≤ st.last_completed_chunk
    · have hcond : ¬ st.last_completed_chunk < (i : Int) := not_lt.mpr h
      rw [if_pos h]
      obtain ⟨ihA, ihB⟩ := ih (i + 1) st
      constructor
      · rw [ihA]
        simp [hcond]
      · intro hc
        rw [ihB hc]
        simp [hcond]
    · have hcond : st.last_completed_chunk < (i : Int) := Int.not_le.mp h
      rw [if_neg h]
      have hall : ∀ l0 : Int, l0 ≤ (i : Int) →
          (List.range' (i + 1) cs'.length).filter (fun (j : Nat) => l0 < (j : Int))
            = List.range' (i + 1) cs'.length := by
        intro l0 hl0
        refine List.filter_eq_self.mpr ?_
        intro a ha
        obtain ⟨ha1, _⟩ := List.mem_range'_1.mp ha
        have : (i : Int) < (a : Int) := by exact_mod_cast Nat.lt_of_succ_le ha1
        simp only [decide_eq_true_eq]
        omega
      obtain ⟨ihA, ihB⟩ := ih (i + 1)
        { functions := (_process_chunk rc.toConfig c (responses i) st.functions).2.1
          last_completed_chunk := (i : Int)
          lastSeq := st.lastSeq ++ [(i : Int)]
          saves := st.saves ++ _save_state rc (i : Int) total
            (_process_chunk rc.toConfig c (responses i) st.functions).2.1 }
      constructor
      · rw [ihA]
        simp only [hall (i : Int) le_rfl, hall st.last_completed_chunk (le_of_lt hcond)]
        simp [hcond]
      · intro hc
        rw [ihB hc]
        simp only [hall (i : Int) le_rfl, hall st.last_completed_chunk (le_of_lt hcond)]
        simp [hcond, _save_state, hc]

/-- **C2.** Throughout a run of the controller loop started at checkpoint
position `last0 < total_chunks` (with a state file configured): the
successive values assigned to `last_completed_chunk` are strictly increasing
— also strictly above the starting value — and each stays strictly below
`total_chunks`; and the checkpoints persisted correspond one-to-one, in
order, to the processed chunks, each recording that chunk's index (a
checkpoint is written after every processed chunk, whether it ended clean or
exhausted — `runGo` saves unconditionally after `_process_chunk`). -/
theorem claim_C2 (rc : RunConfig) (responses : Nat → Nat → String)
    (chunks : List String) (functions0 : List Func) (last0 : Int)
    (hlast : last0 < (chunks.length : Int))
    (hconf : rc.state_file_configured = true) :
    List.Chain' (· < ·)
        (last0 :: (runLoop rc responses chunks functions0 last0).lastSeq)
    ∧ (∀ v ∈ last0 :: (runLoop rc responses chunks functions0 last0).lastSeq,
        v < (chunks.length : Int))
    ∧ (runLoop rc responses chunks functions0 last0).saves.map
          (·.last_completed_chunk)
        = (runLoop rc responses chunks functions0 last0).lastSeq := by
  obtain ⟨hA, hB⟩ := runGo_lastSeq_saves rc responses chunks.length chunks 0
    { functions := functions0, last_completed_chunk := last0, lastSeq := [], saves := [] }
  rw [runLoop] at *
  refine ⟨?_, ?_, ?_⟩
  · rw [hA]
    simp only [List.nil_append]
    rw [List.chain'_iff_pairwise, List.pairwise_cons]
    constructor
    · intro v hv
      obtain ⟨j, hj, rfl⟩ := List.mem_map.mp hv
      have := List.of_mem_filter hj
      simpa using this
    · refine List.Pairwise.map _ ?_
        (List.Pairwise.filter _ (List.pairwise_lt_range' 0 chunks.length))
      intro a b hab
      exact_mod_cast hab
  · intro v hv
    rcases List.mem_cons.mp hv with rfl | hv2
    · exact hlast
    · rw [hA] at hv2
      simp only [List.nil_append] at hv2
      obtain ⟨j, hj, rfl⟩ := List.mem_map.mp hv2
      have := List.mem_filter.mp hj
      obtain ⟨_, hj2⟩ := List.mem_range'_1.mp this.1
      exact_mod_cast by omega
  · rw [hA, hB hconf]
    simp

set_option maxRecDepth 8000 in
/-- Concrete instance of C2: a fresh two-chunk run (a backend that
immediately reports `clean`) assigns `last_completed_chunk` the values
`0, 1` — strictly increasing from `-1`, each below `2` — and writes exactly
one checkpoint per chunk, recording those indices. -/
theorem claim_C2_witness :
    List.Chain' (· < ·) ((-1 : Int) ::
      (runLoop
        { instructions := "", context_budget := 8000, schema_str := "", mode := .structured
          validate_runtime := true, max_iterations := 1
          jsonLoads := fun _ => none, pyExec := fun _ => .error ⟨"E", "e"⟩
          astOk := fun _ => true
          file_path := "d.jsonl", chunk_size := 50, state_file_configured := true
          timestamp := "t" }
        (fun _ _ => "<cleaning_analysis><chunk_status>clean</chunk_status></cleaning_analysis>")
        ["c0", "c1"] [] (-1)).lastSeq)
    ∧ (runLoop
        { instructions := "", context_budget := 8000, schema_str := "", mode := .structured
          validate_runtime := true, max_iterations := 1
          jsonLoads := fun _ => none, pyExec := fun _ => .error ⟨"E", "e"⟩
          astOk := fun _ => true
          file_path := "d.jsonl", chunk_size := 50, state_file_configured := true
          timestamp := "t" }
        (fun _ _ => "<cleaning_analysis><chunk_status>clean</chunk_status></cleaning_analysis>")
        ["c0", "c1"] [] (-1)).lastSeq = [0, 1]
    ∧ (runLoop
        { instructions := "", context_budget := 8000, schema_str := "", mode := .structured
          validate_runtime := true, max_iterations := 1
          jsonLoads := fun _ => none, pyExec := fun _ => .error ⟨"E", "e"⟩
          astOk := fun _ => true
          file_path := "d.jsonl", chunk_size := 50, state_file_configured := true
          timestamp := "t" }
        (fun _ _ => "<cleaning_analysis><chunk_status>clean</chunk_status></cleaning_analysis>")
        ["c0", "c1"] [] (-1)).saves.map (·.last_completed_chunk) = [0, 1] := by
  have h := claim_C2
    { instructions := "", context_budget := 8000, schema_str := "", mode := .structured
      validate_runtime := true, max_iterations := 1
      jsonLoads := fun _ => none, pyExec := fun _ => .error ⟨"E", "e"⟩
      astOk := fun _ => true
      file_path := "d.jsonl", chunk_size := 50, state_file_configured := true
      timestamp := "t" }
    (fun _ _ => "<cleaning_analysis><chunk_status>clean</chunk_status></cleaning_analysis>")
    ["c0", "c1"] [] (-1) (by decide) rfl
  have hseq : (runLoop
      { instructions := "", context_budget := 8000, schema_str := "", mode := .structured
        validate_runtime := true, max_iterations := 1
        jsonLoads := fun _ => none, pyExec := fun _ => .error ⟨"E", "e"⟩
        astOk := fun _ => true
        file_path := "d.jsonl", chunk_size := 50, state_file_configured := true
        timestamp := "t" }
      (fun _ _ => "<cleaning_analysis><chunk_status>clean</chunk_status></cleaning_analysis>")
      ["c0", "c1"] [] (-1)).lastSeq = [0, 1] := rfl
  exact ⟨h.1, hseq, by rw [h.2.2, hseq]⟩

/-! ## Error feedback in successive prompts (C9) -/

theorem iterStep_feedback (cfg : Config) (chunk : String) (functions : List Func)
    (response : String) :
    (iterStep cfg chunk functions response).feedback
      = feedbackFromEvent (iterStep cfg chunk functions response).event := by
  rw [iterStep]
  cases parse_response cfg.astOk response with
  | error e => rfl
  | ok result =>
    by_cases h1 : result.status = "clean"
    · simp [h1, feedbackFromEvent]
    · by_cases h2 : result.code ≠ ""
      · simp only [if_neg h1, if_pos h2]
        by_cases h3 : cfg.validate_runtime
        · simp only [h3, if_true]
          by_cases h4 : (validate_function cfg.pyExec result.code
              (extract_sample_data cfg.jsonLoads chunk 3 cfg.mode) result.name cfg.mode).1
          · simp [h4, feedbackFromEvent]
          · simp [h4, feedbackFromEvent]
        · simp [h3, feedbackFromEvent]
      · simp [h1, h2, feedbackFromEvent]

theorem processChunkGo_trace (cfg : Config) (chunk : String) (responses : Nat → String) :
    ∀ (remaining k : Nat) (functions : List Func) (feedback : String),
      (∀ r ∈ ((processChunkGo cfg chunk responses k remaining functions feedback).1).head?,
        r.feedbackIn = feedback ∧ r.prompt = mkPrompt cfg functions chunk feedback)
      ∧ List.Chain' (promptLink cfg chunk)
          (processChunkGo cfg chunk responses k remaining functions feedback).1 := by
  intro remaining
  induction remaining with
  | zero =>
    intro k functions feedback
    exact ⟨by simp [processChunkGo], by simp [processChunkGo]⟩
  | succ n ih =>
    intro k functions feedback
    rw [processChunkGo]
    simp only
    set out := iterStep cfg chunk functions (responses k) with hout
    match hev : out.event with
    | .chunkClean =>
      refine ⟨?_, by simp⟩
      intro r hr
      simp only [Option.mem_def, Option.some.injEq, List.head?] at hr
      rw [← hr]
      exact ⟨rfl, rfl⟩
    | .parseFailed m | .accepted f | .validationFailed fn m | .noFunction =>
      · obtain ⟨ihHead, ihChain⟩ := ih (k + 1) out.functions out.feedback
        refine ⟨?_, ?_⟩
        · intro r hr
          simp only [List.head?, Option.mem_def, Option.some.injEq] at hr
          rw [← hr]
          exact ⟨rfl, rfl⟩
        · rw [List.chain'_cons']
          refine ⟨?_, ihChain⟩
          intro y hy
          obtain ⟨hy1, hy2⟩ := ihHead y hy
          have hfe : out.feedback = feedbackFromEvent out.event := iterStep_feedback ..
          constructor
          · rw [hy1, hfe, hev]
          · rw [hy2, hfe, hev]

/-- **C9.** Within one chunk, every iteration after the first is prompted
with exactly the predecessor's outcome folded in (`promptLink` holds between
consecutive records of the trace, and the first record starts with empty
feedback over the initial accumulator); and whenever `promptLink` holds, a
predecessor that failed parsing or validation makes the successor's prompt
contain the failure diagnostic (the prompt decomposes around it), while
after any other predecessor the successor's prompt is exactly the plain
built prompt with no corrective note appended. -/
theorem claim_C9 (cfg : Config) (chunk : String) (responses : Nat → String)
    (functions : List Func) :
    List.Chain' (promptLink cfg chunk) (_process_chunk cfg chunk responses functions).1
    ∧ (∀ r ∈ ((_process_chunk cfg chunk responses functions).1).head?,
        r.feedbackIn = "" ∧ r.prompt = mkPrompt cfg functions chunk "")
    ∧ (∀ r r' : IterRecord, promptLink cfg chunk r r' →
        (∀ m, r.event = .parseFailed m →
          ∃ u v, r'.prompt = u ++ m ++ v)
        ∧ (∀ fn m, r.event = .validationFailed fn m →
          ∃ u v, r'.prompt = u ++ ("Runtime validation failed: " ++ m) ++ v)
        ∧ ((r.event = .chunkClean ∨ (∃ f, r.event = .accepted f) ∨ r.event = .noFunction) →
          r'.prompt = build_prompt cfg.instructions
            (build_context r.functionsAfter cfg.context_budget) chunk cfg.schema_str cfg.mode)) := by
  obtain ⟨hHead, hChain⟩ :=
    processChunkGo_trace cfg chunk responses cfg.max_iterations 0 functions ""
  refine ⟨hChain, hHead, ?_⟩
  intro r r' hlink
  obtain ⟨hfb, hpr⟩ := hlink
  refine ⟨?_, ?_, ?_⟩
  · intro m hev
    rw [hpr, hev]
    by_cases hm : m = ""
    · exact ⟨mkPrompt cfg r.functionsAfter chunk (feedbackFromEvent (.parseFailed m)), "",
        by rw [hm]; simp⟩
    · refine ⟨build_prompt cfg.instructions
          (build_context r.functionsAfter cfg.context_budget) chunk cfg.schema_str cfg.mode
          ++ "\n\nYour previous response had an error: ",
        "\nPlease fix and try again.", ?_⟩
      rw [mkPrompt]
      simp only [feedbackFromEvent]
      rw [if_pos hm, feedbackNote]
      simp [String.append_assoc]
  · intro fn m hev
    rw [hpr, hev]
    refine ⟨build_prompt cfg.instructions
        (build_context r.functionsAfter cfg.context_budget) chunk cfg.schema_str cfg.mode
        ++ "\n\nYour previous response had an error: ",
      "\nPlease fix and try again.", ?_⟩
    rw [mkPrompt]
    simp only [feedbackFromEvent]
    rw [if_pos ?_, feedbackNote]
    · simp [String.append_assoc]
    · intro h
      have h2 := congrArg String.length h
      rw [String.length_append] at h2
      have h3 : 0 < "Runtime validation failed: ".length := by decide
      simp only [String.length_empty] at h2
      omega
  · intro hev
    have hfe : feedbackFromEvent r.event = "" := by
      rcases hev with h | ⟨f, h⟩ | h <;> rw [h] <;> rfl
    rw [hpr, hfe, mkPrompt, if_neg (by simp)]

set_option maxRecDepth 8000 in
/-- Concrete instance of C9: iteration 0 returns malformed XML, and the
prompt of iteration 1 contains the `Invalid XML` parse diagnostic. -/
theorem claim_C9_witness :
    ∃ u v,
      ((_process_chunk
          { instructions := "", context_budget := 8000, schema_str := "", mode := .structured
            validate_runtime := true, max_iterations := 5
            jsonLoads := fun _ => none, pyExec := fun _ => .error ⟨"E", "e"⟩
            astOk := fun _ => true }
          "c"
          (fun k => if k = 0 then "<"
            else "<cleaning_analysis><chunk_status>clean</chunk_status></cleaning_analysis>")
          []).1.get ⟨1, by decide⟩).prompt
        = u ++ ("Invalid XML: " ++ xmlErrDetail) ++ v := by
  have h := claim_C9
    { instructions := "", context_budget := 8000, schema_str := "", mode := .structured
      validate_runtime := true, max_iterations := 5
      jsonLoads := fun _ => none, pyExec := fun _ => .error ⟨"E", "e"⟩
      astOk := fun _ => true }
    "c"
    (fun k => if k = 0 then "<"
      else "<cleaning_analysis><chunk_status>clean</chunk_status></cleaning_analysis>")
    []
  have hchain := List.chain'_iff_get.mp h.1
  have hlk := hchain 0 (by decide)
  have hev : ((_process_chunk
      { instructions := "", context_budget := 8000, schema_str := "", mode := .structured
        validate_runtime := true, max_iterations := 5
        jsonLoads := fun _ => none, pyExec := fun _ => .error ⟨"E", "e"⟩
        astOk := fun _ => true }
      "c"
      (fun k => if k = 0 then "<"
        else "<cleaning_analysis><chunk_status>clean</chunk_status></cleaning_analysis>")
      []).1.get ⟨0, by decide⟩).event
      = .parseFailed ("Invalid XML: " ++ xmlErrDetail) := rfl
  exact (h.2.2 _ _ hlk).1 _ hev

/-! ## Rejection of self-referential imports (C7) -/

/-- **C7.** Whenever a response parses far enough that a proposed function's
code is extracted, is syntactically valid Python, and contains `__main__`
(as any self-referential import such as `from __main__ import ...` does),
`parse_response` fails with the dedicated `ParseError`, whose message is
distinct from the malformed-document (`Invalid XML: ...`) and bad-syntax
(`Invalid Python syntax: ...`) message families. -/
theorem claim_C7 (astOk : AstOk) (text : String) (root analysis f ce : XTree)
    (code : String)
    (hroot : xmlFromString ("<root>" ++ text ++ "</root>") = some root)
    (hfind : findInNodes "cleaning_analysis" root.childrenOf = some analysis)
    (hfunc : analysis.findDesc "function_to_generate" = some f)
    (hcode : f.findChild "code" = some ce)
    (hct : ce.etext ≠ "")
    (hex : extract_python_block ce.etext = code)
    (hast : astOk code = true)
    (hmain : containsSubstr code "__main__" = true) :
    parse_response astOk text = .error mainImportError
    ∧ pyStartsWith mainImportError "Invalid XML: " = false
    ∧ pyStartsWith mainImportError "Invalid Python syntax: " = false := by
  refine ⟨?_, by decide, by decide⟩
  rw [parse_response, hroot]
  simp only [hfind]
  rw [decodeAnalysis]
  simp only [hfunc, hcode]
  rw [if_neg hct, hex]
  rw [if_neg (by simp [hast]), if_pos hmain]

set_option maxRecDepth 8000 in
/-- Concrete instance of C7: a response whose proposed code starts with
`from __main__ import g` is rejected with the dedicated message. -/
theorem claim_C7_witness :
    parse_response (fun _ => true)
        "<cleaning_analysis><function_to_generate><name>f</name><docstring>d</docstring><code>from __main__ import g\ndef f(data):\n    return g(data)</code></function_to_generate><chunk_status>needs_more_work</chunk_status></cleaning_analysis>"
      = .error mainImportError := by
  have h := claim_C7 (fun _ => true)
    "<cleaning_analysis><function_to_generate><name>f</name><docstring>d</docstring><code>from __main__ import g\ndef f(data):\n    return g(data)</code></function_to_generate><chunk_status>needs_more_work</chunk_status></cleaning_analysis>"
    (.elem "root" []
      (.cons (.elem "cleaning_analysis" []
        (.cons (.elem "function_to_generate" []
          (.cons (.elem "name" [] (.cons (.text "f") .nil))
            (.cons (.elem "docstring" [] (.cons (.text "d") .nil))
              (.cons (.elem "code" []
                (.cons (.text "from __main__ import g\ndef f(data):\n    return g(data)") .nil))
                .nil))))
          (.cons (.elem "chunk_status" [] (.cons (.text "needs_more_work") .nil)) .nil)))
        .nil))
    (.elem "cleaning_analysis" []
      (.cons (.elem "function_to_generate" []
        (.cons (.elem "name" [] (.cons (.text "f") .nil))
          (.cons (.elem "docstring" [] (.cons (.text "d") .nil))
            (.cons (.elem "code" []
              (.cons (.text "from __main__ import g\ndef f(data):\n    return g(data)") .nil))
              .nil))))
        (.cons (.elem "chunk_status" [] (.cons (.text "needs_more_work") .nil)) .nil)))
    (.elem "function_to_generate" []
      (.cons (.elem "name" [] (.cons (.text "f") .nil))
        (.cons (.elem "docstring" [] (.cons (.text "d") .nil))
          (.cons (.elem "code" []
            (.cons (.text "from __main__ import g\ndef f(data):\n    return g(data)") .nil))
            .nil))))
    (.elem "code" []
      (.cons (.text "from __main__ import g\ndef f(data):\n    return g(data)") .nil))
    "from __main__ import g\ndef f(data):\n    return g(data)"
    rfl rfl rfl rfl (by decide) rfl rfl (by decide)
  exact h.1

/-! ## Tolerant location of the analysis section (C5) -/

set_option maxRecDepth 8000 in
/-- **C5 counterexample.** A response containing exactly one well-formed
analysis section (it parses standalone, and `parse_response` decodes it when
it stands alone) is *not* decoded when surrounded by ordinary prose
containing a raw `&`: `parse_response` raises the Invalid-XML `ParseError`
instead of locating the section, because the scan is a whole-document XML
parse of the wrapped response, not tolerant scanning. -/
theorem claim_C5_counterexample :
    parse_response (fun _ => true)
        "<cleaning_analysis><chunk_status>clean</chunk_status></cleaning_analysis>"
      = .ok { issues := [], name := "", docstring := "", code := "", status := "clean" }
    ∧ (xmlFromString
        "<cleaning_analysis><chunk_status>clean</chunk_status></cleaning_analysis>").isSome
      = true
    ∧ parse_response (fun _ => true)
        "Costs & benefits\n<cleaning_analysis><chunk_status>clean</chunk_status></cleaning_analysis>"
      = .error ("Invalid XML: " ++ xmlErrDetail) :=
  ⟨rfl, by decide, rfl⟩

/-! ### Substring containment and occurrence -/

theorem containsChars_iff (sub : List Char) :
    ∀ l : List Char, containsChars sub l = true ↔ sub <:+: l := by
  intro l
  induction l with
  | nil =>
    rw [containsChars]
    simp [List.isEmpty_iff, List.infix_nil]
  | cons c rest ih =>
    rw [containsChars]
    rw [Bool.or_eq_true, List.isPrefixOf_iff_prefix, ih, List.infix_cons_iff]

/-- Splitting an occurrence inside an append: it lies in the left part, in
the right part, or straddles the seam. -/
theorem infix_append_split {α : Type} {t a b : List α} (h : t <:+: a ++ b) :
    t <:+: a ∨ t <:+: b
    ∨ ∃ n, 0 < n ∧ n < t.length ∧ t.take n <:+ a ∧ t.drop n <+: b := by
  obtain ⟨s, u, hsu⟩ := h
  rw [List.append_assoc] at hsu
  rcases List.append_eq_append_iff.mp hsu with ⟨m, hm1, hm2⟩ | ⟨m, hm1, hm2⟩
  · -- a = s ++ m and t ++ u = m ++ b
    rcases List.append_eq_append_iff.mp hm2.symm with ⟨k, hk1, hk2⟩ | ⟨k, hk1, hk2⟩
    · -- t = m ++ k, b = k ++ u : t straddles (or lies in one part)
      rcases eq_or_ne m [] with rfl | hmne
      · refine Or.inr (Or.inl ?_)
        exact ⟨[], u, by simp [hk1, hk2]⟩
      · rcases eq_or_ne k [] with rfl | hkne
        · refine Or.inl ?_
          refine ⟨s, [], ?_⟩
          simp only [List.append_nil] at hk1 ⊢
          rw [hm1, hk1]
        · refine Or.inr (Or.inr ⟨m.length, ?_, ?_, ?_, ?_⟩)
          · exact List.length_pos.mpr hmne
          · rw [hk1, List.length_append]
            have := List.length_pos.mpr hkne
            omega
          · rw [hk1, List.take_left]
            exact ⟨s, hm1.symm⟩
          · rw [hk1, List.drop_left]
            exact ⟨u, hk2.symm⟩
    · -- m = t ++ k and u = k ++ b : t inside a
      refine Or.inl ⟨s, k, ?_⟩
      rw [hm1, hk1]
      simp
  · -- s = a ++ m, b = m ++ t ++ u : t inside b
    refine Or.inr (Or.inl ⟨m, u, ?_⟩)
    rw [List.append_assoc]
    exact hm2.symm

/-! ### Structural facts about the XML parser -/

theorem takeWhile_append_stop {p : Char → Bool} :
    ∀ (xs : List Char), (∀ x ∈ xs, p x = true) → ∀ (y : Char) (ys : List Char), p y = false →
      (xs ++ y :: ys).takeWhile p = xs ∧ (xs ++ y :: ys).dropWhile p = y :: ys := by
  intro xs
  induction xs with
  | nil =>
    intro _ y ys hy
    simp [List.takeWhile_cons, List.dropWhile_cons, hy]
  | cons x xs ih =>
    intro hall y ys hy
    have hx : p x = true := hall x (List.mem_cons_self _ _)
    obtain ⟨ih1, ih2⟩ := ih (fun z hz => hall z (List.mem_cons_of_mem _ hz)) y ys hy
    constructor
    · simp [List.takeWhile_cons, hx, ih1]
    · simp [List.dropWhile_cons, hx, ih2]

theorem parseEntity_suffix {i : List Char} {c : Char} {r : List Char}
    (h : parseEntity i = some (c, r)) : r <:+ i := by
  rw [parseEntity] at h
  simp only at h
  have hsfx : (i.span (fun c => decide (c ≠ ';'))).2 <:+ i := by
    rw [List.span_eq_take_drop]
    exact List.dropWhile_suffix _
  split at h
  · rename_i sc rr heq
    have hrr : rr <:+ i := (List.suffix_cons sc rr).trans (heq ▸ hsfx)
    split_ifs at h <;> simp only [Option.some.injEq, Prod.mk.injEq] at h <;>
      exact h.2 ▸ hrr
  · exact absurd h (by simp)

theorem parseAttrs_suffix :
    ∀ (f : Nat) {i : List Char} {as : List (String × String)} {r : List Char},
      parseAttrs f i = some (as, r) → r <:+ i := by
  intro f
  induction f with
  | zero => intro i as r h; exact absurd h (by simp [parseAttrs])
  | succ n ih =>
    intro i as r h
    rw [parseAttrs] at h
    simp only at h
    have h1 : i.dropWhile isXmlWs <:+ i := List.dropWhile_suffix _
    split at h
    · rename_i heq
      simp only [Option.some.injEq, Prod.mk.injEq] at h
      rw [← h.2]
      exact List.nil_suffix
    · rename_i ch tl heq
      split_ifs at h with hname
      · have hspan2 : (List.span isNameChar (i.dropWhile isXmlWs)).2 <:+ i := by
          rw [List.span_eq_take_drop]
          exact (List.dropWhile_suffix _).trans h1
        split at h
        · rename_i z eqc qr heq2
          split at h
          · rename_i q r2
            have hr2 : r2 <:+ i := by
              refine List.IsSuffix.trans ?_ hspan2
              rw [heq2]
              exact (List.suffix_cons q r2).trans (List.suffix_cons eqc (q :: r2))
            split_ifs at h with hq
            split at h
            · rename_i q2 r4 heq4
              have hr4 : r4 <:+ i := by
                refine List.IsSuffix.trans ?_ hr2
                refine List.IsSuffix.trans (List.suffix_cons q2 r4) ?_
                rw [← heq4, List.span_eq_take_drop]
                exact List.dropWhile_suffix _
              split_ifs at h with hq2
              split at h
              · rename_i attrs r5 heq5
                simp only [Option.some.injEq, Prod.mk.injEq] at h
                rw [← h.2]
                exact (ih heq5).trans hr4
              · exact absurd h (by simp)
            · exact absurd h (by simp)
          · exact absurd h (by simp)
        · exact absurd h (by simp)
      · simp only [Option.some.injEq, Prod.mk.injEq] at h
        rw [← h.2, heq]
        exact heq ▸ h1

theorem parse_suffix :
    ∀ f : Nat,
      (∀ {i : List Char} {ns : XForest} {r : List Char},
        parseNodes f i = some (ns, r) → r <:+ i)
      ∧ (∀ {i : List Char} {e : XTree} {r : List Char},
        parseElement f i = some (e, r) → r <:+ i) := by
  intro f
  induction f with
  | zero =>
    constructor
    · intro i ns r h; exact absurd h (by simp [parseNodes])
    · intro i e r h; exact absurd h (by simp [parseElement])
  | succ n ih =>
    obtain ⟨ihN, ihE⟩ := ih
    constructor
    · intro i ns r h
      cases i with
      | nil =>
        rw [parseNodes] at h
        simp only [Option.some.injEq, Prod.mk.injEq] at h
        rw [← h.2]
      | cons c tl =>
        rw [parseNodes] at h
        split_ifs at h with hc hsl hamp
        · simp only [Option.some.injEq, Prod.mk.injEq] at h
          rw [← h.2]
        · split at h
          · rename_i e1 r1 heqE
            split at h
            · rename_i ns2 r2 heqN
              simp only [Option.some.injEq, Prod.mk.injEq] at h
              rw [← h.2]
              exact (ihN heqN).trans (ihE heqE)
            · exact absurd h (by simp)
          · exact absurd h (by simp)
        · split at h
          · rename_i ch r1 heqEnt
            split at h
            · rename_i ns2 r2 heqN
              simp only [Option.some.injEq, Prod.mk.injEq] at h
              rw [← h.2]
              exact ((ihN heqN).trans (parseEntity_suffix heqEnt)).trans
                (List.suffix_cons c tl)
            · exact absurd h (by simp)
          · exact absurd h (by simp)
        · split at h
          · rename_i ns2 r2 heqN
            simp only [Option.some.injEq, Prod.mk.injEq] at h
            rw [← h.2]
            refine (ihN heqN).trans ?_
            rw [List.span_eq_take_drop]
            exact List.dropWhile_suffix _
          · exact absurd h (by simp)
    · intro i e r h
      cases i with
      | nil => exact absurd (by rw [parseElement] at h; exact h) (by simp)
      | cons lt rr =>
        rw [parseElement] at h
        simp only at h
        split_ifs at h with hlt hnm
        have hspan2 : (List.span isNameChar rr).2 <:+ lt :: rr := by
          refine List.IsSuffix.trans ?_ (List.suffix_cons lt rr)
          rw [List.span_eq_take_drop]
          exact List.dropWhile_suffix _
        split at h
        · rename_i attrs r2 heqA
          split at h
          · rename_i c2 r2t
            have hr2t : r2t <:+ lt :: rr :=
              (List.suffix_cons c2 r2t).trans ((parseAttrs_suffix n heqA).trans hspan2)
            split_ifs at h with hsl hgt
            · split at h
              · rename_i c3 r3
                split_ifs at h with hgt2
                simp only [Option.some.injEq, Prod.mk.injEq] at h
                rw [← h.2]
                exact (List.suffix_cons c3 r3).trans hr2t
              · exact absurd h (by simp)
            · split at h
              · rename_i children r4 heqN
                split at h
                · rename_i c4 r4t
                  have hr4t : r4t <:+ lt :: rr :=
                    (List.suffix_cons c4 r4t).trans ((ihN heqN).trans hr2t)
                  split_ifs at h with hcl
                  split at h
                  · rename_i c5 r8 heq5
                    split_ifs at h with hfin
                    simp only [Option.some.injEq, Prod.mk.injEq] at h
                    rw [← h.2]
                    refine List.IsSuffix.trans ((List.suffix_cons c5 r8).trans ?_)
                      ((List.tail_suffix r4t).trans hr4t)
                    rw [← heq5]
                    refine List.IsSuffix.trans (List.dropWhile_suffix _) ?_
                    rw [List.span_eq_take_drop]
                    exact List.dropWhile_suffix _
                  · exact absurd h (by simp)
                · exact absurd h (by simp)
              · exact absurd h (by simp)
          · exact absurd h (by simp)
        · exact absurd h (by simp)

theorem infix_of_disjoint_left {t a b : List Char} (hne : t ≠ [])
    (hdis : ∀ x ∈ t, x ∉ a) (h : t <:+: a ++ b) : t <:+: b := by
  rcases infix_append_split h with h1 | h1 | ⟨n, hn0, hnl, htk, hdr⟩
  · exact absurd (h1.subset (List.head_mem hne)) (hdis _ (List.head_mem hne))
  · exact h1
  · have hx : t.take n ≠ [] := by
      intro hc
      rcases List.take_eq_nil_iff.mp hc with hc2 | hc2
      · omega
      · exact hne hc2
    have hmem := List.head_mem hx
    exact absurd (htk.subset hmem) (hdis _ (List.take_subset _ _ hmem))

theorem infix_of_disjoint_right {t a b : List Char} (hne : t ≠ [])
    (hdis : ∀ x ∈ t, x ∉ b) (h : t <:+: a ++ b) : t <:+: a := by
  rcases infix_append_split h with h1 | h1 | ⟨n, hn0, hnl, htk, hdr⟩
  · exact h1
  · exact absurd (h1.subset (List.head_mem hne)) (hdis _ (List.head_mem hne))
  · have hx : t.drop n ≠ [] := by
      intro hc
      rw [List.drop_eq_nil_iff] at hc
      omega
    have hmem := List.head_mem hx
    exact absurd (hdr.subset hmem) (hdis _ (List.drop_subset _ _ hmem))

theorem tagInForest_consText (t s : String) (ns : XForest) :
    tagInForest t (consText s ns) = tagInForest t ns := by
  cases ns with
  | nil => rfl
  | cons h rest => cases h with
    | text s2 => rfl
    | elem tg a c => rfl

theorem tagInForest_cons (t : String) (e : XTree) (ns : XForest) :
    tagInForest t (.cons e ns)
      = (tagInForest t (.cons e .nil) || tagInForest t ns) := by
  cases e with
  | text s => simp [tagInForest]
  | elem tg a c => simp [tagInForest, Bool.or_assoc]

theorem tagInForest_of_children {t : String} {e : XTree}
    (h : tagInForest t e.childrenOf = true) : tagInForest t (.cons e .nil) = true := by
  cases e with
  | text s => simp [XTree.childrenOf, tagInForest] at h
  | elem tg a c =>
    simp only [XTree.childrenOf] at h
    simp [tagInForest, h]

theorem tagInForest_of_tagOf {t : String} {e : XTree} (h : e.tagOf = t) (hne : t ≠ "") :
    tagInForest t (.cons e .nil) = true := by
  cases e with
  | text s => exact absurd h.symm hne
  | elem tg a c =>
    simp only [XTree.tagOf] at h
    simp [tagInForest, h]

theorem findInNodes_tag (tg : String) :
    ∀ (f : XForest), ∀ a, findInNodes tg f = some a → tagInForest tg f = true := by
  intro f
  induction f using findInNodes.induct tg with
  | case1 => intro a h; exact absurd h (by simp [findInNodes])
  | case2 s rest ih =>
    intro a h
    rw [findInNodes] at h
    simp only [tagInForest]
    exact ih a h
  | case3 a2 c rest =>
    intro a h
    simp [tagInForest]
  | case4 t a2 c rest hne e2 hfc ihc =>
    intro a h
    simp [tagInForest, ihc e2 hfc]
  | case5 t a2 c rest hne hfc ihc ihr =>
    intro a h
    rw [findInNodes, if_neg hne, hfc] at h
    simp [tagInForest, ihr a h]

/-- Every element tag occurring in a parse result is an infix of the parsed
input: the parser invents no tags. -/
theorem parse_tags :
    ∀ f : Nat,
      (∀ {i : List Char} {ns : XForest} {r : List Char},
        parseNodes f i = some (ns, r) →
        ∀ t : String, tagInForest t ns = true → t.data <:+: i)
      ∧ (∀ {i : List Char} {e : XTree} {r : List Char},
        parseElement f i = some (e, r) →
        ∀ t : String, tagInForest t (.cons e .nil) = true → t.data <:+: i) := by
  intro f
  induction f with
  | zero =>
    constructor
    · intro i ns r h; exact absurd h (by simp [parseNodes])
    · intro i e r h; exact absurd h (by simp [parseElement])
  | succ n ih =>
    obtain ⟨ihN, ihE⟩ := ih
    constructor
    · intro i ns r h
      cases i with
      | nil =>
        rw [parseNodes] at h
        simp only [Option.some.injEq, Prod.mk.injEq] at h
        intro t ht
        rw [← h.1] at ht
        simp [tagInForest] at ht
      | cons c tl =>
        rw [parseNodes] at h
        split_ifs at h with hc hsl hamp
        · simp only [Option.some.injEq, Prod.mk.injEq] at h
          intro t ht
          rw [← h.1] at ht
          simp [tagInForest] at ht
        · split at h
          · rename_i e1 r1 heqE
            split at h
            · rename_i ns2 r2 heqN
              simp only [Option.some.injEq, Prod.mk.injEq] at h
              intro t ht
              rw [← h.1, tagInForest_cons, Bool.or_eq_true] at ht
              rcases ht with ht | ht
              · exact ihE heqE t ht
              · exact (ihN heqN t ht).trans ((parse_suffix n).2 heqE).isInfix
            · exact absurd h (by simp)
          · exact absurd h (by simp)
        · split at h
          · rename_i ch r1 heqEnt
            split at h
            · rename_i ns2 r2 heqN
              simp only [Option.some.injEq, Prod.mk.injEq] at h
              intro t ht
              rw [← h.1, tagInForest_consText] at ht
              exact ((ihN heqN t ht).trans (parseEntity_suffix heqEnt).isInfix).trans
                (List.suffix_cons c tl).isInfix
            · exact absurd h (by simp)
          · exact absurd h (by simp)
        · split at h
          · rename_i ns2 r2 heqN
            simp only [Option.some.injEq, Prod.mk.injEq] at h
            intro t ht
            rw [← h.1, tagInForest_consText] at ht
            refine (ihN heqN t ht).trans ?_
            refine List.IsSuffix.isInfix ?_
            rw [List.span_eq_take_drop]
            exact List.dropWhile_suffix _
          · exact absurd h (by simp)
    · intro i e r h
      cases i with
      | nil => exact absurd (by rw [parseElement] at h; exact h) (by simp)
      | cons lt rr =>
        rw [parseElement] at h
        simp only at h
        split_ifs at h with hlt hnm
        have hnmPrefix : (List.span isNameChar rr).1 <+: rr := by
          rw [List.span_eq_take_drop]
          exact List.takeWhile_prefix _
        split at h
        · rename_i attrs r2 heqA
          have hspan2 : (List.span isNameChar rr).2 <:+ lt :: rr := by
            refine List.IsSuffix.trans ?_ (List.suffix_cons lt rr)
            rw [List.span_eq_take_drop]
            exact List.dropWhile_suffix _
          split at h
          · rename_i c2 r2t
            have hr2t : r2t <:+ lt :: rr :=
              (List.suffix_cons c2 r2t).trans ((parseAttrs_suffix n heqA).trans hspan2)
            split_ifs at h with hsl hgt
            · split at h
              · rename_i c3 r3
                split_ifs at h with hgt2
                simp only [Option.some.injEq, Prod.mk.injEq] at h
                intro t ht
                rw [← h.1] at ht
                simp [tagInForest] at ht
                have hpre : t.data <+: rr := by
                  rw [← ht]
                  exact List.takeWhile_prefix _
                exact hpre.isInfix.trans (List.suffix_cons lt rr).isInfix
              · exact absurd h (by simp)
            · split at h
              · rename_i children r4 heqN
                split at h
                · rename_i c4 r4t
                  split_ifs at h with hcl
                  split at h
                  · rename_i c5 r8 heq5
                    split_ifs at h with hfin
                    simp only [Option.some.injEq, Prod.mk.injEq] at h
                    intro t ht
                    rw [← h.1] at ht
                    simp only [tagInForest, Bool.or_false, Bool.or_eq_true,
                      decide_eq_true_eq] at ht
                    rcases ht with ht | ht
                    · have hpre : t.data <+: rr := by
                        rw [← ht]
                        exact hnmPrefix
                      exact hpre.isInfix.trans (List.suffix_cons lt rr).isInfix
                    · exact (ihN heqN t ht).trans hr2t.isInfix
                  · exact absurd h (by simp)
                · exact absurd h (by simp)
              · exact absurd h (by simp)
          · exact absurd h (by simp)
        · exact absurd h (by simp)

/-- Any tag in a document parsed by `xmlFromString` (the root tag or any
descendant tag) occurs in the document text. -/
theorem xmlFromString_tag {s : String} {root : XTree} (h : xmlFromString s = some root)
    (t : String) (ht : tagInForest t (.cons root .nil) = true) : t.data <:+: s.data := by
  rw [xmlFromString] at h
  split at h
  · rename_i e rest heqE
    split_ifs at h with hemp
    simp only [Option.some.injEq] at h
    subst h
    exact ((parse_tags _).2 heqE t ht).trans (List.dropWhile_suffix _).isInfix
  · exact absurd h (by simp)

/-- When the analysis tag occurs nowhere in the response, `parse_response`
raises a `ParseError`: either the located-nothing error or, if the wrapped
document is malformed, the Invalid-XML error. -/
theorem no_section_error (astOk : AstOk) (text : String)
    (hno : ¬ ("cleaning_analysis".data <:+: text.data)) :
    parse_response astOk text = .error "No <cleaning_analysis> element found"
    ∨ parse_response astOk text = .error ("Invalid XML: " ++ xmlErrDetail) := by
  have hne : ("cleaning_analysis".data : List Char) ≠ [] := by decide
  have hdisL : ∀ x ∈ "cleaning_analysis".data, x ∉ "<root>".data := by decide
  have hdisR : ∀ x ∈ "cleaning_analysis".data, x ∉ "</root>".data := by decide
  have hmain : ∀ root : XTree,
      xmlFromString ("<root>" ++ text ++ "</root>") = some root →
      ∀ t2 : XTree, tagInForest "cleaning_analysis" (.cons root .nil) = true → False := by
    intro root hx t2 htag
    have hinf := xmlFromString_tag hx "cleaning_analysis" htag
    rw [show ("<root>" ++ text ++ "</root>").data
        = "<root>".data ++ (text.data ++ "</root>".data) by
      simp [String.data_append]] at hinf
    exact hno (infix_of_disjoint_right hne hdisR
      (infix_of_disjoint_left hne hdisL hinf))
  have hdirect : ∀ direct : XTree, xmlFromString text = some direct →
      ∀ t2 : XTree, tagInForest "cleaning_analysis" (.cons direct .nil) = true → False := by
    intro direct hx t2 htag
    exact hno (xmlFromString_tag hx "cleaning_analysis" htag)
  cases hx : xmlFromString ("<root>" ++ text ++ "</root>") with
  | none =>
    right
    rw [parse_response, hx]
  | some root =>
    left
    rw [parse_response, hx]
    have hfind : findInNodes "cleaning_analysis" root.childrenOf = none := by
      cases hf : findInNodes "cleaning_analysis" root.childrenOf with
      | none => rfl
      | some a =>
        exact absurd (tagInForest_of_children
          (findInNodes_tag "cleaning_analysis" root.childrenOf a hf))
          (fun hc => hmain root hx a hc)
    cases hx2 : xmlFromString text with
    | none => simp [hfind, hx2]
    | some direct =>
      have htagne : ¬ (direct.tagOf = "cleaning_analysis") := by
        intro hc
        exact hdirect direct hx2 direct
          (tagInForest_of_tagOf hc (by decide))
      have hfd : direct.findDesc "cleaning_analysis" = none := by
        cases hf : direct.findDesc "cleaning_analysis" with
        | none => rfl
        | some a =>
          rw [XTree.findDesc] at hf
          exact absurd (tagInForest_of_children
            (findInNodes_tag "cleaning_analysis" direct.childrenOf a hf))
            (fun hc => hdirect direct hx2 a hc)
      simp [hfind, hx2, htagne, hfd]

/-- A name character is not whitespace and not a markup delimiter. -/
theorem nameChar_not_special {c : Char} (h : isNameChar c = true) :
    isXmlWs c = false ∧ c ≠ '/' ∧ c ≠ '<' ∧ c ≠ '>' ∧ c ≠ '=' ∧ c ≠ '&' ∧ c ≠ '"' := by
  refine ⟨?_, ?_, ?_, ?_, ?_, ?_, ?_⟩
  · cases hw : isXmlWs c with
    | false => rfl
    | true =>
      exfalso
      have hc : ((c = ' ' ∨ c = '\n') ∨ c = '\t') ∨ c = '\r' := by
        simpa [isXmlWs] using hw
      rcases hc with ((rfl | rfl) | rfl) | rfl <;> exact absurd h (by decide)
  all_goals intro hc
  all_goals subst hc
  all_goals exact absurd h (by decide)

/-- Unpack `nameOk`. -/
theorem nameOk_spec {s : String} (h : nameOk s = true) :
    s.data ≠ [] ∧ ∀ x ∈ s.data, isNameChar x = true := by
  rw [nameOk, Bool.and_eq_true] at h
  constructor
  · simpa [List.isEmpty_iff] using h.1
  · exact fun x hx => List.all_eq_true.mp h.2 x hx

/-- Unpack `textOk` into the form the parser span uses. -/
theorem textOk_spec {s : String} (h : textOk s = true) :
    s.data ≠ [] ∧ ∀ x ∈ s.data, (decide (x ≠ '<' ∧ x ≠ '&')) = true := by
  rw [textOk, Bool.and_eq_true] at h
  constructor
  · simpa [List.isEmpty_iff] using h.1
  · intro x hx
    have := List.all_eq_true.mp h.2 x hx
    simp at this ⊢
    tauto

/-- Unpack an attribute value constraint into the form the parser span uses. -/
theorem attrOk_spec {k v : String} (h : attrOk (k, v) = true) :
    nameOk k = true ∧ ∀ x ∈ v.data, (decide (x ≠ '"' ∧ x ≠ '<' ∧ x ≠ '&')) = true := by
  rw [attrOk, Bool.and_eq_true] at h
  refine ⟨h.1, ?_⟩
  intro x hx
  have := List.all_eq_true.mp h.2 x hx
  simp at this ⊢
  tauto

/-- Rendering an attribute list and parsing it back is the identity, leaving
the `>` terminator unconsumed. -/
theorem parseAttrs_render :
    ∀ (attrs : List (String × String)) (fuel : Nat) (rest : List Char),
      attrs.length < fuel → attrs.all attrOk = true →
      parseAttrs fuel ((renderAttrs attrs).data ++ '>' :: rest)
        = some (attrs, '>' :: rest) := by
  intro attrs
  induction attrs with
  | nil =>
    intro fuel rest hf _
    match fuel, hf with
    | fuel + 1, _ =>
      have hsh : (renderAttrs []).data ++ '>' :: rest = '>' :: rest := by
        simp [renderAttrs]
      rw [hsh, parseAttrs]
      simp [List.dropWhile_cons, (by decide : isXmlWs '>' = false),
        (by decide : isNameChar '>' = false)]
  | cons kv attrs ih =>
    obtain ⟨k, v⟩ := kv
    intro fuel rest hf hall
    rw [List.all_cons, Bool.and_eq_true] at hall
    obtain ⟨hkv, hall⟩ := hall
    obtain ⟨hk, hv⟩ := attrOk_spec hkv
    obtain ⟨hkne, hkchars⟩ := nameOk_spec hk
    match fuel, hf with
    | fuel + 1, hf =>
      obtain ⟨kc, ks, hkd⟩ : ∃ kc ks, k.data = kc :: ks := by
        cases hkd : k.data with
        | nil => exact absurd hkd hkne
        | cons kc ks => exact ⟨kc, ks, rfl⟩
      have hkcn : isNameChar kc = true :=
        hkchars kc (by rw [hkd]; exact List.mem_cons_self _ _)
      have hsh : (renderAttrs ((k, v) :: attrs)).data ++ '>' :: rest
          = ' ' :: kc :: (ks ++ '=' :: '"' :: (v.data ++ '"' ::
              ((renderAttrs attrs).data ++ '>' :: rest))) := by
        simp [renderAttrs, String.data_append, hkd]
      have hdw : List.dropWhile isXmlWs
          (' ' :: kc :: (ks ++ '=' :: '"' :: (v.data ++ '"' ::
            ((renderAttrs attrs).data ++ '>' :: rest))))
          = kc :: (ks ++ '=' :: '"' :: (v.data ++ '"' ::
            ((renderAttrs attrs).data ++ '>' :: rest))) := by
        rw [List.dropWhile_cons, if_pos (by decide), List.dropWhile_cons,
          if_neg (by
            rw [(nameChar_not_special hkcn).1]
            exact Bool.false_ne_true)]
      have hspan := takeWhile_append_stop (p := isNameChar) (kc :: ks)
        (by rw [← hkd]; exact hkchars) '=' ('"' :: (v.data ++ '"' ::
          ((renderAttrs attrs).data ++ '>' :: rest))) (by decide)
      rw [List.cons_append] at hspan
      have hlen : attrs.length < fuel := by
        simp only [List.length_cons] at hf
        omega
      have hih := ih fuel rest hlen hall
      have hvspan := takeWhile_append_stop
        (p := fun c => decide (¬c = '"' ∧ ¬c = '<' ∧ ¬c = '&'))
        v.data (by simpa using hv) '"'
        ((renderAttrs attrs).data ++ '>' :: rest) (by decide)
      have hcond : (('=' : Char) = '=' ∧ ((('"' : Char).val = 34) ∨ (('"' : Char).val = 39))) := by
        decide
      rw [hsh, parseAttrs]
      simp only [hdw, List.span_eq_take_drop, hspan.1, hspan.2,
        hkcn, if_true, hcond, if_pos, hvspan.1, hvspan.2, hih]
      simp only [and_self, if_true]
      rw [← hkd]

/-- Parsing the rendering of a well-formed document is the identity: the
parser returns exactly the rendered forest (or element) and leaves the
continuation - end of input or a closing tag - unconsumed. -/
theorem render_parse :
    ∀ fuel : Nat,
      (∀ (ns : XForest) (rest : List Char), wfF ns = true → sizeF ns < fuel →
        (rest = [] ∨ ∃ rr : List Char, rest = '<' :: '/' :: rr) →
        parseNodes fuel ((renderF ns).data ++ rest) = some (ns, rest))
      ∧ (∀ (tag : String) (attrs : List (String × String)) (c : XForest)
          (rest : List Char),
        wfT (.elem tag attrs c) = true → sizeT (.elem tag attrs c) < fuel →
        parseElement fuel ((renderT (.elem tag attrs c)).data ++ rest)
          = some (.elem tag attrs c, rest)) := by
  intro fuel
  induction fuel with
  | zero =>
    constructor
    · intro ns rest _ hsz _
      exact absurd hsz (Nat.not_lt_zero _)
    · intro tag attrs c rest _ hsz
      exact absurd hsz (Nat.not_lt_zero _)
  | succ n ih =>
    obtain ⟨ihN, ihE⟩ := ih
    constructor
    · intro ns rest hwf hsz hstop
      cases ns with
      | nil =>
        have hsh : (renderF .nil).data ++ rest = rest := by simp [renderF]
        rcases hstop with rfl | ⟨rr, rfl⟩
        · rw [hsh, parseNodes]
        · rw [hsh, parseNodes]
          simp
      | cons e ns2 =>
        cases e with
        | text s =>
          have hsz2 : sizeF ns2 < n := by
            simp only [sizeF, sizeT] at hsz
            omega
          have hsh : (renderF (.cons (.text s) ns2)).data ++ rest
              = s.data ++ ((renderF ns2).data ++ rest) := by
            simp [renderF, renderT, String.data_append]
          cases ns2 with
          | nil =>
            have hts : textOk s = true := by simpa [wfF, wfT] using hwf
            obtain ⟨hsne, hschars⟩ := textOk_spec hts
            obtain ⟨c0, s1, hsd⟩ : ∃ c0 s1, s.data = c0 :: s1 := by
              cases hsd : s.data with
              | nil => exact absurd hsd hsne
              | cons c0 s1 => exact ⟨c0, s1, rfl⟩
            have hc0 := hschars c0 (by rw [hsd]; exact List.mem_cons_self _ _)
            rw [decide_eq_true_eq] at hc0
            have hren : (renderF (.nil : XForest)).data = ([] : List Char) := by
              simp [renderF]
            rcases hstop with rfl | ⟨rr, rfl⟩
            · have htk : List.takeWhile (fun x => decide (¬x = '<' ∧ ¬x = '&')) s.data
                  = s.data :=
                List.takeWhile_eq_self_iff.mpr (by simpa using hschars)
              have hdr : List.dropWhile (fun x => decide (¬x = '<' ∧ ¬x = '&')) s.data
                  = [] :=
                List.dropWhile_eq_nil_iff.mpr (by simpa using hschars)
              have hN : parseNodes n [] = some (.nil, []) := by
                have := ihN .nil [] (by simp [wfF]) hsz2 (Or.inl rfl)
                simpa [hren] using this
              rw [hsh, hren]
              simp only [List.nil_append, List.append_nil]
              rw [hsd, parseNodes]
              simp only [if_neg (by exact fun hx => hc0.1 hx),
                if_neg (by exact fun hx => hc0.2 hx), ← hsd,
                List.span_eq_take_drop, htk, hdr, hN]
              rfl
            · have hstop2 := takeWhile_append_stop
                (p := fun x => decide (¬x = '<' ∧ ¬x = '&')) s.data
                (by simpa using hschars) '<' ('/' :: rr) (by decide)
              have hN : parseNodes n ('<' :: '/' :: rr) = some (.nil, '<' :: '/' :: rr) := by
                have := ihN .nil ('<' :: '/' :: rr) (by simp [wfF]) hsz2
                  (Or.inr ⟨rr, rfl⟩)
                simpa [hren] using this
              rw [hsh, hren]
              simp only [List.nil_append]
              rw [hsd, List.cons_append, parseNodes]
              simp only [if_neg (by exact fun hx => hc0.1 hx),
                if_neg (by exact fun hx => hc0.2 hx), ← List.cons_append, ← hsd,
                List.span_eq_take_drop, hstop2.1, hstop2.2, hN]
              rfl
          | cons e2 ns3 =>
            cases e2 with
            | text s2 => exact absurd hwf (by simp [wfF])
            | elem tg2 a3 c3 =>
              have hwfparts : textOk s = true
                  ∧ wfF (.cons (.elem tg2 a3 c3) ns3) = true := by
                have : wfF (.cons (.text s) (.cons (.elem tg2 a3 c3) ns3))
                    = (wfT (.text s) && wfF (.cons (.elem tg2 a3 c3) ns3)) := rfl
                rw [this, Bool.and_eq_true] at hwf
                exact ⟨hwf.1, hwf.2⟩
              obtain ⟨hsne, hschars⟩ := textOk_spec hwfparts.1
              obtain ⟨c0, s1, hsd⟩ : ∃ c0 s1, s.data = c0 :: s1 := by
                cases hsd : s.data with
                | nil => exact absurd hsd hsne
                | cons c0 s1 => exact ⟨c0, s1, rfl⟩
              have hc0 := hschars c0 (by rw [hsd]; exact List.mem_cons_self _ _)
              rw [decide_eq_true_eq] at hc0
              have hT : ∃ Q, (renderF (.cons (.elem tg2 a3 c3) ns3)).data ++ rest
                  = '<' :: Q := by
                refine ⟨(tg2.data ++ ((renderAttrs a3).data ++ '>' ::
                  ((renderF c3).data ++ '<' :: '/' :: (tg2.data ++ '>' ::
                    ((renderF ns3).data ++ rest))))), ?_⟩
                simp [renderF, renderT, String.data_append]
              obtain ⟨Q, hQ⟩ := hT
              have hstop2 := takeWhile_append_stop
                (p := fun x => decide (¬x = '<' ∧ ¬x = '&')) s.data
                (by simpa using hschars) '<' Q (by decide)
              have hN := ihN (.cons (.elem tg2 a3 c3) ns3) rest hwfparts.2 hsz2 hstop
              rw [hsh, hQ, hsd, List.cons_append, parseNodes]
              simp only [if_neg (by exact fun hx => hc0.1 hx),
                if_neg (by exact fun hx => hc0.2 hx), ← List.cons_append, ← hsd,
                List.span_eq_take_drop]
              rw [hstop2.1, hstop2.2, ← hQ, hN]
              rfl
        | elem tg a2 c2 =>
          have hwfparts : wfT (.elem tg a2 c2) = true ∧ wfF ns2 = true := by
            have : wfF (.cons (.elem tg a2 c2) ns2)
                = (wfT (.elem tg a2 c2) && wfF ns2) := rfl
            rw [this, Bool.and_eq_true] at hwf
            exact hwf
          have hszE : sizeT (.elem tg a2 c2) < n := by
            simp only [sizeF] at hsz
            omega
          have hsz2 : sizeF ns2 < n := by
            simp only [sizeF] at hsz
            omega
          obtain ⟨htagne, htagchars⟩ := nameOk_spec (by
            have := hwfparts.1
            rw [wfT, Bool.and_eq_true, Bool.and_eq_true] at this
            exact this.1.1)
          obtain ⟨tc, ts, htg⟩ : ∃ tc ts, tg.data = tc :: ts := by
            cases htg : tg.data with
            | nil => exact absurd htg htagne
            | cons tc ts => exact ⟨tc, ts, rfl⟩
          have htcn : isNameChar tc = true :=
            htagchars tc (by rw [htg]; exact List.mem_cons_self _ _)
          have hinput : (renderF (.cons (.elem tg a2 c2) ns2)).data ++ rest
              = (renderT (.elem tg a2 c2)).data ++ ((renderF ns2).data ++ rest) := by
            simp [renderF, String.data_append]
          have hsh : (renderT (.elem tg a2 c2)).data ++ ((renderF ns2).data ++ rest)
              = '<' :: tc :: (ts ++ ((renderAttrs a2).data ++ '>' ::
                  ((renderF c2).data ++ '<' :: '/' :: (tg.data ++ '>' ::
                    ((renderF ns2).data ++ rest))))) := by
            simp [renderT, String.data_append, htg]
          have hE : parseElement n ('<' :: tc :: (ts ++ ((renderAttrs a2).data ++ '>' ::
              ((renderF c2).data ++ '<' :: '/' :: (tg.data ++ '>' ::
                ((renderF ns2).data ++ rest))))))
              = some (.elem tg a2 c2, (renderF ns2).data ++ rest) := by
            rw [← hsh]
            exact ihE tg a2 c2 _ hwfparts.1 hszE
          have hN := ihN ns2 rest hwfparts.2 hsz2 hstop
          rw [hinput, hsh, parseNodes]
          simp only [if_pos rfl, List.head?_cons, Option.some.injEq,
            if_neg (fun hx => (nameChar_not_special htcn).2.1 hx), hE, hN]
          simp
    · intro tag attrs c rest hwf hsz
      have hwf' := hwf
      rw [wfT, Bool.and_eq_true, Bool.and_eq_true] at hwf'
      obtain ⟨⟨htag, hattrs⟩, hc⟩ := hwf'
      obtain ⟨htagne, htagchars⟩ := nameOk_spec htag
      obtain ⟨tc, ts, htg⟩ : ∃ tc ts, tag.data = tc :: ts := by
        cases htg : tag.data with
        | nil => exact absurd htg htagne
        | cons tc ts => exact ⟨tc, ts, rfl⟩
      have htagchars2 : ∀ x ∈ tc :: ts, isNameChar x = true := fun x hx =>
        htagchars x (by rw [htg]; exact hx)
      have hszA : attrs.length < n := by
        simp only [sizeT] at hsz
        omega
      have hszC : sizeF c < n := by
        simp only [sizeT] at hsz
        omega
      have hsh : (renderT (.elem tag attrs c)).data ++ rest
          = '<' :: tc :: (ts ++ ((renderAttrs attrs).data ++ '>' ::
              ((renderF c).data ++ '<' :: '/' :: (tc :: (ts ++ '>' :: rest))))) := by
        simp [renderT, String.data_append, htg]
      have hstopA : ∃ y ys, (renderAttrs attrs).data ++ '>' ::
          ((renderF c).data ++ '<' :: '/' :: (tc :: (ts ++ '>' :: rest))) = y :: ys
          ∧ isNameChar y = false := by
        cases attrs with
        | nil =>
          exact ⟨'>', (renderF c).data ++ '<' :: '/' :: (tc :: (ts ++ '>' :: rest)),
            by simp [renderAttrs], by decide⟩
        | cons kv attrs2 =>
          obtain ⟨k2, v2⟩ := kv
          refine ⟨' ', k2.data ++ '=' :: '"' :: (v2.data ++ '"' ::
            ((renderAttrs attrs2).data ++ '>' ::
              ((renderF c).data ++ '<' :: '/' :: (tc :: (ts ++ '>' :: rest))))), ?_, by decide⟩
          simp [renderAttrs, String.data_append]
      obtain ⟨y, ys, hy, hyn⟩ := hstopA
      have hspan : List.takeWhile isNameChar (tc :: (ts ++ y :: ys)) = tc :: ts
          ∧ List.dropWhile isNameChar (tc :: (ts ++ y :: ys)) = y :: ys := by
        have h0 := takeWhile_append_stop (p := isNameChar) (tc :: ts) htagchars2 y ys hyn
        rw [List.cons_append] at h0
        exact h0
      have hA := parseAttrs_render attrs n
        ((renderF c).data ++ '<' :: '/' :: (tc :: (ts ++ '>' :: rest))) hszA hattrs
      have hN := ihN c ('<' :: '/' :: (tc :: (ts ++ '>' :: rest))) hc hszC
        (Or.inr ⟨tc :: (ts ++ '>' :: rest), rfl⟩)
      have hspan2 : List.takeWhile isNameChar (tc :: (ts ++ '>' :: rest)) = tc :: ts
          ∧ List.dropWhile isNameChar (tc :: (ts ++ '>' :: rest)) = '>' :: rest := by
        have h0 := takeWhile_append_stop (p := isNameChar) (tc :: ts) htagchars2 '>'
          rest (by decide)
        rw [List.cons_append] at h0
        exact h0
      have hdw2 : List.dropWhile isXmlWs ('>' :: rest) = '>' :: rest := by
        rw [List.dropWhile_cons, if_neg (by decide)]
      rw [hsh, parseElement]
      simp only [List.span_eq_take_drop]
      simp only [if_true]
      rw [hy, hspan.1, hspan.2, ← hy]
      have hgtsl : ((('>' : Char) = '/')) = False := eq_false (by decide)
      have hgtgt : ((('>' : Char) = '>')) = True := eq_true rfl
      simp only [List.isEmpty_cons, Bool.false_eq_true, if_false, hA, hgtsl, hgtgt,
        if_true, hN, List.head?_cons, Option.some.injEq, List.tail_cons]
      simp only [and_self, if_true, hspan2.1, hspan2.2, hdw2, hgtgt]
      rw [← htg]

theorem renderAttrs_len (a : List (String × String)) :
    a.length ≤ (renderAttrs a).data.length := by
  induction a with
  | nil => simp [renderAttrs]
  | cons kv rest ih =>
    obtain ⟨k, v⟩ := kv
    have hlen : (renderAttrs ((k, v) :: rest)).data.length
        = 4 + k.data.length + v.data.length + (renderAttrs rest).data.length := by
      simp only [renderAttrs, String.data_append, List.length_append,
        List.length_cons, List.length_nil]
      omega
    simp only [List.length_cons]
    omega

/-- The parsing-depth measure of a well-formed tree is below twice the
length of its rendering (the bound that discharges the parser fuel). -/
theorem size_lt_two_render :
    ∀ e : XTree, wfT e = true → sizeT e + 1 ≤ 2 * (renderT e).data.length := by
  intro e
  refine sizeT.induct
    (fun e => wfT e = true → sizeT e + 1 ≤ 2 * (renderT e).data.length)
    (fun ns => wfF ns = true → sizeF ns ≤ 2 * (renderF ns).data.length)
    ?_ ?_ ?_ ?_ e
  · intro s hwf
    have hne := (textOk_spec (by simpa [wfT] using hwf)).1
    have hlen : 1 ≤ s.data.length := by
      cases hd : s.data with
      | nil => exact absurd hd hne
      | cons a l => simp
    simp only [sizeT, renderT]
    omega
  · intro t a c ihc hwf
    rw [wfT, Bool.and_eq_true, Bool.and_eq_true] at hwf
    have hc := ihc hwf.2
    have hra := renderAttrs_len a
    have hlen : (renderT (.elem t a c)).data.length
        = 2 * t.data.length + (renderAttrs a).data.length
          + (renderF c).data.length + 5 := by
      simp [renderT, String.data_append, List.length_append]
      omega
    simp only [sizeT]
    omega
  · intro _
    simp [sizeF, renderF]
  · intro h t ih1 ih2 hwf
    have hparts : wfT h = true ∧ wfF t = true := by
      cases h with
      | elem tg a c =>
        have heq : wfF (.cons (.elem tg a c) t) = (wfT (.elem tg a c) && wfF t) := rfl
        rw [heq, Bool.and_eq_true] at hwf
        exact hwf
      | text s =>
        cases t with
        | nil =>
          have heq : wfF (.cons (.text s) .nil) = (wfT (.text s) && wfF .nil) := rfl
          rw [heq, Bool.and_eq_true] at hwf
          exact hwf
        | cons h2 t2 =>
          cases h2 with
          | text s2 => exact absurd hwf (by simp [wfF])
          | elem tg2 a2 c2 =>
            have heq : wfF (.cons (.text s) (.cons (.elem tg2 a2 c2) t2))
                = (wfT (.text s) && wfF (.cons (.elem tg2 a2 c2) t2)) := rfl
            rw [heq, Bool.and_eq_true] at hwf
            exact hwf
    have h1 := ih1 hparts.1
    have h2 := ih2 hparts.2
    have hren : (renderF (.cons h t)).data.length
        = (renderT h).data.length + (renderF t).data.length := by
      simp [renderF, String.data_append]
    simp only [sizeF]
    omega

/-- Non-empty prose is well-formed character data. -/
theorem textOk_of_prose {s : String} (hp : proseOk s = true) (hne : ¬ s = "") :
    textOk s = true := by
  rw [textOk, Bool.and_eq_true]
  constructor
  · cases hd : s.data with
    | nil =>
      exfalso
      apply hne
      cases s with
      | mk d => cases hd; rfl
    | cons a l =>
      simp
  · exact (by rw [proseOk] at hp; exact hp)

/-- `parse_response` locates and decodes a rendered well-formed analysis
section surrounded by markup-free prose. -/
theorem located_section (astOk : AstOk) (pre post : String)
    (attrs : List (String × String)) (c : XForest)
    (hpre : proseOk pre = true) (hpost : proseOk post = true)
    (hwf : wfT (.elem "cleaning_analysis" attrs c) = true) :
    parse_response astOk
        (pre ++ renderT (.elem "cleaning_analysis" attrs c) ++ post)
      = decodeAnalysis astOk (.elem "cleaning_analysis" attrs c) := by
  have main : ∀ F : XForest, wfF F = true →
      (renderF F).data
        = (pre ++ renderT (.elem "cleaning_analysis" attrs c) ++ post).data →
      findInNodes "cleaning_analysis" F
        = some (.elem "cleaning_analysis" attrs c) →
      parse_response astOk
          (pre ++ renderT (.elem "cleaning_analysis" attrs c) ++ post)
        = decodeAnalysis astOk (.elem "cleaning_analysis" attrs c) := by
    intro F hwfF hrF hfind
    have hwfR : wfT (.elem "root" [] F) = true := by
      rw [wfT]
      simp [hwfF, (by decide : nameOk "root" = true)]
    have hszR := size_lt_two_render (.elem "root" [] F) hwfR
    have hdataS : ("<root>" ++ (pre ++ renderT (.elem "cleaning_analysis" attrs c)
          ++ post) ++ "</root>").data
        = (renderT (.elem "root" [] F)).data := by
      simp [renderT, renderAttrs, String.data_append, hrF]
    have hlenS : ("<root>" ++ (pre ++ renderT (.elem "cleaning_analysis" attrs c)
          ++ post) ++ "</root>").length
        = (renderT (.elem "root" [] F)).data.length := by
      rw [← hdataS]
      rfl
    have hfuel : sizeT (.elem "root" [] F)
        < 2 * ("<root>" ++ (pre ++ renderT (.elem "cleaning_analysis" attrs c)
            ++ post) ++ "</root>").length + 2 := by
      omega
    have hparse := (render_parse (2 * ("<root>" ++ (pre
        ++ renderT (.elem "cleaning_analysis" attrs c) ++ post)
        ++ "</root>").length + 2)).2 "root" [] F [] hwfR hfuel
    rw [List.append_nil] at hparse
    have hhead : (renderT (.elem "root" [] F)).data
        = '<' :: ("root".data ++ ((renderAttrs ([] : List (String × String))).data
            ++ '>' :: ((renderF F).data
              ++ '<' :: '/' :: ("root".data ++ '>' :: ([] : List Char))))) := by
      simp [renderT, String.data_append]
    have hxml : xmlFromString ("<root>" ++ (pre
        ++ renderT (.elem "cleaning_analysis" attrs c) ++ post) ++ "</root>")
        = some (.elem "root" [] F) := by
      rw [xmlFromString]
      have hdrop : (("<root>" ++ (pre ++ renderT (.elem "cleaning_analysis" attrs c)
            ++ post) ++ "</root>").data).dropWhile isXmlWs
          = ("<root>" ++ (pre ++ renderT (.elem "cleaning_analysis" attrs c)
            ++ post) ++ "</root>").data := by
        rw [hdataS, hhead, List.dropWhile_cons, if_neg (by decide)]
      rw [hdrop, hdataS, hparse]
      simp
    rw [parse_response, hxml]
    simp [XTree.childrenOf, hfind]
  by_cases hpre0 : pre = ""
  · by_cases hpost0 : post = ""
    · refine main (.cons (.elem "cleaning_analysis" attrs c) .nil) ?_ ?_ ?_
      · have heq : wfF (.cons (.elem "cleaning_analysis" attrs c) .nil)
            = (wfT (.elem "cleaning_analysis" attrs c) && wfF .nil) := rfl
        rw [heq, hwf]
        rfl
      · rw [hpre0, hpost0]
        simp [renderF, String.data_append]
      · simp [findInNodes]
    · refine main (.cons (.elem "cleaning_analysis" attrs c)
        (.cons (.text post) .nil)) ?_ ?_ ?_
      · have heq : wfF (.cons (.elem "cleaning_analysis" attrs c)
              (.cons (.text post) .nil))
            = (wfT (.elem "cleaning_analysis" attrs c)
                && (textOk post && true)) := rfl
        rw [heq, hwf, textOk_of_prose hpost hpost0]
        rfl
      · rw [hpre0]
        simp [renderF, renderT, String.data_append]
      · simp [findInNodes]
  · by_cases hpost0 : post = ""
    · refine main (.cons (.text pre)
        (.cons (.elem "cleaning_analysis" attrs c) .nil)) ?_ ?_ ?_
      · have heq : wfF (.cons (.text pre)
              (.cons (.elem "cleaning_analysis" attrs c) .nil))
            = (textOk pre && (wfT (.elem "cleaning_analysis" attrs c)
                && true)) := rfl
        rw [heq, hwf, textOk_of_prose hpre hpre0]
        rfl
      · rw [hpost0]
        simp [renderF, renderT, String.data_append]
      · simp [findInNodes]
    · refine main (.cons (.text pre)
        (.cons (.elem "cleaning_analysis" attrs c)
          (.cons (.text post) .nil))) ?_ ?_ ?_
      · have heq : wfF (.cons (.text pre)
              (.cons (.elem "cleaning_analysis" attrs c)
                (.cons (.text post) .nil)))
            = (textOk pre && (wfT (.elem "cleaning_analysis" attrs c)
                && (textOk post && true))) := rfl
        rw [heq, hwf, textOk_of_prose hpre hpre0, textOk_of_prose hpost hpost0]
        rfl
      · simp [renderF, renderT, String.data_append]
      · simp [findInNodes]

/-- **C5** (corrected). Tolerant location of the analysis section holds only
for surrounding prose that is markup-free XML character data: when the
response is one well-formed rendered `<cleaning_analysis>` section surrounded
by prose free of raw `<` and `&`, `parse_response` locates and decodes exactly
that section; and when the analysis tag occurs nowhere in the response,
`parse_response` raises a `ParseError` (the no-element error, or the
Invalid-XML error when the wrapped document is malformed). The accompanying
counterexample refutes the original unrestricted-prose claim: a raw `&` in
the prose makes `parse_response` raise `Invalid XML` instead of locating the
section. -/
theorem claim_C5 (astOk : AstOk) (pre post t : String)
    (attrs : List (String × String)) (c : XForest)
    (hpre : proseOk pre = true) (hpost : proseOk post = true)
    (hwf : wfT (.elem "cleaning_analysis" attrs c) = true)
    (hone : tagInForest "cleaning_analysis" c = false)
    (hno : ¬ ("cleaning_analysis".data <:+: t.data)) :
    parse_response astOk
        (pre ++ renderT (.elem "cleaning_analysis" attrs c) ++ post)
      = decodeAnalysis astOk (.elem "cleaning_analysis" attrs c)
    ∧ (parse_response astOk t = .error "No <cleaning_analysis> element found"
       ∨ parse_response astOk t = .error ("Invalid XML: " ++ xmlErrDetail)) :=
  ⟨located_section astOk pre post attrs c hpre hpost hwf,
   no_section_error astOk t hno⟩

/-- Witness for C5 at concrete inputs: prose-wrapped rendered section on one
side, a section-free reply on the other. -/
theorem claim_C5_witness :
    (proseOk "Here is my analysis. " = true ∧ proseOk " Hope it helps." = true
      ∧ wfT (.elem "cleaning_analysis" []
          (.cons (.elem "chunk_status" [] (.cons (.text "clean") .nil)) .nil)) = true
      ∧ tagInForest "cleaning_analysis"
          (.cons (.elem "chunk_status" [] (.cons (.text "clean") .nil)) .nil) = false
      ∧ ¬ ("cleaning_analysis".data <:+: "Sorry, I cannot help with that.".data))
    ∧ (parse_response (fun _ => true)
        ("Here is my analysis. "
          ++ renderT (.elem "cleaning_analysis" []
              (.cons (.elem "chunk_status" [] (.cons (.text "clean") .nil)) .nil))
          ++ " Hope it helps.")
        = decodeAnalysis (fun _ => true) (.elem "cleaning_analysis" []
            (.cons (.elem "chunk_status" [] (.cons (.text "clean") .nil)) .nil))
      ∧ (parse_response (fun _ => true) "Sorry, I cannot help with that."
          = .error "No <cleaning_analysis> element found"
         ∨ parse_response (fun _ => true) "Sorry, I cannot help with that."
          = .error ("Invalid XML: " ++ xmlErrDetail))) :=
  ⟨⟨by decide, by decide, by decide, by decide, by decide⟩,
   claim_C5 (fun _ => true) "Here is my analysis. " " Hope it helps."
     "Sorry, I cannot help with that." []
     (.cons (.elem "chunk_status" [] (.cons (.text "clean") .nil)) .nil)
     (by decide) (by decide) (by decide) (by decide) (by decide)⟩

end RecursiveCleaner
